import Mathlib

/-!
Verification of the bfirs core against its specification.

The definitions below are shallow embeddings of the Rust sources:
  state.rs        (tape state, pointer moves, fused multiply),
  ir.rs           (tokenizer, loop tree, rewrite passes, lowering, primary interpreter),
  compiler.rs     (flat instruction stream pipeline),
  interpreter.rs  (limited/unlimited executor),
  stupid.rs       (direct source interpreter).
Machine integers are modelled as Nat/Int with explicit moduli where the
source can overflow; fallible code returns Except/Option.
-/

/-- usize modulus (64-bit platform). -/
def U64 : Nat := 2 ^ 64

/-- u32 modulus. -/
def U32 : Nat := 2 ^ 32

/-- Wrapping add in a cell of width w bits (wrapping_add in compiler.rs). -/
def wAdd (w a b : Nat) : Nat := (a + b) % 2 ^ w

/-- Wrapping sub in a cell of width w bits (wrapping_sub in compiler.rs). -/
def wSub (w a b : Nat) : Nat := (a + (2 ^ w - b % 2 ^ w)) % 2 ^ w

/-- Tokens produced by the tokenizer (ir.rs, enum Token). -/
inductive Token where
  | Zero : Token
  | Inc : Nat → Token
  | Dec : Nat → Token
  | IncPtr : Nat → Token
  | DecPtr : Nat → Token
  | Read : Token
  | Write : Token
  | LStart : Token
  | LEnd : Token
deriving DecidableEq, Repr

/-- The eight program bytes, as byte values (ir.rs, the filter over b"+-><[],."). -/
def isProgByte (b : Nat) : Bool :=
  b = 43 || b = 45 || b = 62 || b = 60 || b = 91 || b = 93 || b = 44 || b = 46

/-- Core loop of Token::parse (ir.rs lines 29-64) over the filtered byte list.
The run-length count is a usize; its store into Inc/Dec truncates to u32
(count as u32 in the source). The final catch-all branch is unreachable on
filtered input (unreachable in the source). -/
def parseGo : List Nat → List Token
  | [] => []
  | b :: rest =>
    if b = 46 then Token.Write :: parseGo rest
    else if b = 44 then Token.Read :: parseGo rest
    else if b = 91 then
      match rest with
      | c :: d :: rest2 =>
        if (c = 43 ∨ c = 45) ∧ d = 93 then Token.Zero :: parseGo rest2
        else Token.LStart :: parseGo (c :: d :: rest2)
      | [] => Token.LStart :: parseGo []
      | [c] => Token.LStart :: parseGo [c]
    else if b = 93 then Token.LEnd :: parseGo rest
    else if b = 43 ∨ b = 45 ∨ b = 62 ∨ b = 60 then
      (let count := 1 + (rest.takeWhile (· == b)).length
       (if b = 43 then Token.Inc (count % U32)
        else if b = 45 then Token.Dec (count % U32)
        else if b = 62 then Token.IncPtr count
        else Token.DecPtr count) :: parseGo (rest.drop (count - 1)))
    else parseGo rest
termination_by l => l.length
decreasing_by
  all_goals simp only [List.length_cons, List.length_drop, List.length_nil]
  all_goals omega

/-- Token::parse (ir.rs line 24): filter the program bytes, then scan. -/
def Token.parse (data : List Nat) : List Token :=
  parseGo (data.filter isProgByte)

/-- The tokenizer core as the spec words it (spec section 4.1): each maximal
run of k identical arithmetic or pointer bytes becomes a single token
carrying k itself (no truncation), a loop-start immediately followed by one
plus-or-minus byte and a loop-end collapses to Zero, the rest map one to
one. -/
def parseSpecGo : List Nat → List Token
  | [] => []
  | b :: rest =>
    if b = 46 then Token.Write :: parseSpecGo rest
    else if b = 44 then Token.Read :: parseSpecGo rest
    else if b = 91 then
      match rest with
      | c :: d :: rest2 =>
        if (c = 43 ∨ c = 45) ∧ d = 93 then Token.Zero :: parseSpecGo rest2
        else Token.LStart :: parseSpecGo (c :: d :: rest2)
      | [] => Token.LStart :: parseSpecGo []
      | [c] => Token.LStart :: parseSpecGo [c]
    else if b = 93 then Token.LEnd :: parseSpecGo rest
    else if b = 43 ∨ b = 45 ∨ b = 62 ∨ b = 60 then
      (let count := 1 + (rest.takeWhile (· == b)).length
       (if b = 43 then Token.Inc count
        else if b = 45 then Token.Dec count
        else if b = 62 then Token.IncPtr count
        else Token.DecPtr count) :: parseSpecGo (rest.drop (count - 1)))
    else parseSpecGo rest
termination_by l => l.length
decreasing_by
  all_goals simp only [List.length_cons, List.length_drop, List.length_nil]
  all_goals omega

/-- Claim C7's reading of the tokenizer: skip comment bytes, then scan. -/
def Token.parseSpec (data : List Nat) : List Token :=
  parseSpecGo (data.filter isProgByte)

/-- Compile errors (compiler.rs, enum BfCompError). -/
inductive BfCompError where
  | LoopCountMismatch : BfCompError
  | LoopEndBeforeLoopStart : BfCompError
  | Overflow : BfCompError
deriving DecidableEq, Repr

/-- A multiply argument (ir.rs, struct MulArg): a pointer offset (isize) and
a per-iteration delta (i64). -/
structure MulArg where
  offset : Int
  change : Int
deriving DecidableEq, Repr

/-- Tree nodes (ir.rs, enum ITree). Mul carries the range start and end
(Range of isize) and the argument list. -/
inductive ITree where
  | Zero : ITree
  | Mul : Int → Int → List MulArg → ITree
  | Inc : Nat → ITree
  | Dec : Nat → ITree
  | IncPtr : Nat → ITree
  | DecPtr : Nat → ITree
  | Read : ITree
  | Write : ITree
  | Loop : List ITree → ITree
  | If : List ITree → ITree
  | WriteLoop : List ITree → ITree

/-- Token::to_tree core loop (ir.rs lines 69-126). The source keeps a vector
of in-progress loop indices and re-walks the tree from the root on each
LEnd; this is the equivalent zipper form, with the stack of enclosing
partial frames held explicitly (nearest frame first). -/
def toTreeGo : List Token → List ITree → List (List ITree) → Except BfCompError (List ITree)
  | [], cur, ctx => if ctx.isEmpty then .ok cur else .error .LoopCountMismatch
  | Token.Zero :: rest, cur, ctx => toTreeGo rest (cur ++ [ITree.Zero]) ctx
  | Token.Inc n :: rest, cur, ctx => toTreeGo rest (cur ++ [ITree.Inc n]) ctx
  | Token.Dec n :: rest, cur, ctx => toTreeGo rest (cur ++ [ITree.Dec n]) ctx
  | Token.IncPtr n :: rest, cur, ctx => toTreeGo rest (cur ++ [ITree.IncPtr n]) ctx
  | Token.DecPtr n :: rest, cur, ctx => toTreeGo rest (cur ++ [ITree.DecPtr n]) ctx
  | Token.Read :: rest, cur, ctx => toTreeGo rest (cur ++ [ITree.Read]) ctx
  | Token.Write :: rest, cur, ctx => toTreeGo rest (cur ++ [ITree.Write]) ctx
  | Token.LStart :: rest, cur, ctx => toTreeGo rest [] (cur :: ctx)
  | Token.LEnd :: rest, cur, ctx =>
    match ctx with
    | [] => .error .LoopEndBeforeLoopStart
    | parent :: ctx2 => toTreeGo rest (parent ++ [ITree.Loop cur]) ctx2

/-- Token::to_tree (ir.rs line 69). -/
def Token.toTree (ts : List Token) : Except BfCompError (List ITree) :=
  toTreeGo ts [] []

/-- True when, scanning the token list with d loops already open, some LEnd
arrives with no loop open (the claim's loop-end before loop-start
condition). -/
def tokUnder : Nat → List Token → Bool
  | _, [] => false
  | d, Token.LStart :: r => tokUnder (d + 1) r
  | d, Token.LEnd :: r => if d = 0 then true else tokUnder (d - 1) r
  | d, _ :: r => tokUnder d r

/-- Number of loops still open after scanning the token list with d loops
already open (meaningful when tokUnder is false). -/
def tokDepth : Nat → List Token → Nat
  | d, [] => d
  | d, Token.LStart :: r => tokDepth (d + 1) r
  | d, Token.LEnd :: r => tokDepth (d - 1) r
  | d, _ :: r => tokDepth d r

/-- Flat-pipeline instructions (compiler.rs, enum BfInstruc). IncPtrBy and
DecPtrBy carry a NonZeroU32 in the source; the operand is modelled as Nat. -/
inductive BfInstruc (C : Type) where
  | Zero : BfInstruc C
  | Inc : BfInstruc C
  | Dec : BfInstruc C
  | IncPtr : BfInstruc C
  | DecPtr : BfInstruc C
  | Write : BfInstruc C
  | Read : BfInstruc C
  | LStart : Nat → BfInstruc C
  | LEnd : Nat → BfInstruc C
  | IncBy : C → BfInstruc C
  | DecBy : C → BfInstruc C
  | IncPtrBy : Nat → BfInstruc C
  | DecPtrBy : Nat → BfInstruc C
deriving DecidableEq, Repr

/-- TryFrom of u8 for BfInstruc (compiler.rs lines 25-46). -/
def tryFromByte (b : Nat) : Option (BfInstruc Nat) :=
  if b = 43 then some .Inc
  else if b = 45 then some .Dec
  else if b = 62 then some .IncPtr
  else if b = 60 then some .DecPtr
  else if b = 46 then some .Write
  else if b = 44 then some .Read
  else if b = 91 then some (.LStart 0)
  else if b = 93 then some (.LEnd 0)
  else none

/-- BfInstructionStream::bf_to_stream (compiler.rs line 375). -/
def bfToStream (v : List Nat) : List (BfInstruc Nat) := v.filterMap tryFromByte

/-- BfInstruc::is_multi_optimizable (compiler.rs line 81). -/
def isMultiOptimizable : BfInstruc Nat → Bool
  | .Inc => true
  | .Dec => true
  | .IncPtr => true
  | .DecPtr => true
  | _ => false

/-- BfInstruc::as_multi_with (compiler.rs line 49) for a cell of width w. In
the source the operand is reduced modulo MAX+1 unless that modulus overflows
u32 (the 32-bit cell), in which case the raw u32 is kept; for v below 2^32
both cases are v mod 2^w. The final arm is unreachable at the call site. -/
def asMultiWith (w : Nat) (ins : BfInstruc Nat) (v : Nat) : BfInstruc Nat :=
  match ins with
  | .Inc => .IncBy (v % 2 ^ w)
  | .Dec => .DecBy (v % 2 ^ w)
  | .IncPtr => .IncPtrBy v
  | .DecPtr => .DecPtrBy v
  | other => other

/-- BfInstructionStream::group_common_bf (compiler.rs lines 342-371): fold
each maximal run of one repeatable instruction into one instruction. The run
counter ctr is a u32 and wraps. -/
def groupCommonBf (w : Nat) : List (BfInstruc Nat) → List (BfInstruc Nat)
  | [] => []
  | x :: rest =>
    if isMultiOptimizable x then
      (let k := 1 + (rest.takeWhile (· == x)).length
       (if k % U32 = 1 then x else asMultiWith w x (k % U32)) :: groupCommonBf w (rest.drop (k - 1)))
    else x :: groupCommonBf w rest
termination_by l => l.length
decreasing_by
  all_goals simp only [List.length_cons, List.length_drop]
  all_goals omega

/-- First pattern of static_optimize (compiler.rs line 391). -/
def pat0 : List (BfInstruc Nat) := [.LStart 0, .Dec, .LEnd 0]

/-- Second pattern of static_optimize (compiler.rs line 392). -/
def pat1 : List (BfInstruc Nat) := [.LStart 0, .Inc, .LEnd 0]

/-- One pattern-path update of static_optimize (compiler.rs lines 408-416). -/
def patStep (pat : List (BfInstruc Nat)) (p : Nat) (x : BfInstruc Nat) : Nat :=
  if pat[p]? = some x then p + 1
  else if pat[0]? = some x then 1 else 0

/-- One sweep of static_optimize (compiler.rs lines 405-438): scan the
stream, keeping match progress for the two patterns; when one completes,
replace its three just-emitted instructions by Zero. The output is built in
reverse; cnt counts the replacements of this sweep. -/
def soPass : List (BfInstruc Nat) → List (BfInstruc Nat) → Nat → Nat → Nat →
    List (BfInstruc Nat) × Nat
  | [], outRev, _, _, cnt => (outRev.reverse, cnt)
  | x :: rest, outRev, p0, p1, cnt =>
    if patStep pat0 p0 x = 3 then
      soPass rest (BfInstruc.Zero :: (x :: outRev).drop 3) 0 0 (cnt + 1)
    else if patStep pat1 p1 x = 3 then
      soPass rest (BfInstruc.Zero :: (x :: outRev).drop 3) 0 0 (cnt + 1)
    else soPass rest (x :: outRev) (patStep pat0 p0 x) (patStep pat1 p1 x) cnt

/-- BfInstructionStream::static_optimize (compiler.rs lines 380-440): sweep
until a sweep makes no replacement. Each replacing sweep shortens the stream
by two per replacement, which bounds the recursion. -/
def staticOptimize (v : List (BfInstruc Nat)) : List (BfInstruc Nat) :=
  if h : (soPass v [] 0 0 0).2 = 0 then (soPass v [] 0 0 0).1
  else staticOptimize (soPass v [] 0 0 0).1
termination_by v.length
decreasing_by
  have key : ∀ (l outRev : List (BfInstruc Nat)) (p0 p1 c : Nat),
      p0 ≤ outRev.length → p1 ≤ outRev.length →
      (soPass l outRev p0 p1 c).1.length + 2 * ((soPass l outRev p0 p1 c).2 - c)
          = outRev.length + l.length ∧ c ≤ (soPass l outRev p0 p1 c).2 := by
    intro l
    induction l with
    | nil => intro outRev p0 p1 c h0 h1; simp [soPass]
    | cons x rest ih =>
      intro outRev p0 p1 c h0 h1
      by_cases hf0 : patStep pat0 p0 x = 3
      · have hp0 : p0 = 2 := by
          unfold patStep at hf0
          split at hf0
          · omega
          · split at hf0 <;> omega
        rw [soPass]
        simp only [if_pos hf0]
        have hlen : (BfInstruc.Zero :: (x :: outRev).drop 3).length = outRev.length - 1 := by
          simp only [List.length_cons, List.length_drop]
          omega
        have h2 := ih (BfInstruc.Zero :: (x :: outRev).drop 3) 0 0 (c + 1)
          (by omega) (by omega)
        rw [hlen] at h2
        simp only [List.length_cons]
        omega
      · by_cases hf1 : patStep pat1 p1 x = 3
        · have hp1 : p1 = 2 := by
            unfold patStep at hf1
            split at hf1
            · omega
            · split at hf1 <;> omega
          rw [soPass]
          simp only [if_neg hf0, if_pos hf1]
          have hlen : (BfInstruc.Zero :: (x :: outRev).drop 3).length = outRev.length - 1 := by
            simp only [List.length_cons, List.length_drop]
            omega
          have h2 := ih (BfInstruc.Zero :: (x :: outRev).drop 3) 0 0 (c + 1)
            (by omega) (by omega)
          rw [hlen] at h2
          simp only [List.length_cons]
          omega
        · have hb0 : patStep pat0 p0 x ≤ p0 + 1 := by
            unfold patStep
            split
            · omega
            · split <;> omega
          have hb1 : patStep pat1 p1 x ≤ p1 + 1 := by
            unfold patStep
            split
            · omega
            · split <;> omega
          rw [soPass]
          simp only [if_neg hf0, if_neg hf1]
          have h2 := ih (x :: outRev) (patStep pat0 p0 x) (patStep pat1 p1 x) c
            (by simp only [List.length_cons]; omega) (by simp only [List.length_cons]; omega)
          simp only [List.length_cons] at h2 ⊢
          omega
  have h2 := key v [] 0 0 0 (by simp) (by simp)
  simp only [List.length_nil, Nat.zero_add] at h2
  omega

/-- BfInstructionStream::insert_bf_jump_points core loop (compiler.rs lines
442-475): scan by index, push LStart positions, and on each LEnd patch the
popped start and the end with each other's index. The u32 stores of the
indices are modelled as Nat. -/
def insertGo : List (BfInstruc Nat) → Nat → List Nat → Except BfCompError (List (BfInstruc Nat))
  | s, idx, stack =>
    if h : idx < s.length then
      match s[idx] with
      | BfInstruc.LStart _ => insertGo s (idx + 1) (idx :: stack)
      | BfInstruc.LEnd _ =>
        match stack with
        | [] => .error .LoopEndBeforeLoopStart
        | v :: stack2 =>
          insertGo ((s.set v (BfInstruc.LStart idx)).set idx (BfInstruc.LEnd v)) (idx + 1) stack2
      | _ => insertGo s (idx + 1) stack
    else if stack.isEmpty then .ok s else .error .LoopCountMismatch
termination_by s idx stack => s.length - idx
decreasing_by
  all_goals try simp only [List.length_set]
  all_goals omega

/-- BfInstructionStream::insert_bf_jump_points (compiler.rs line 442). -/
def insertBfJumpPoints (s : List (BfInstruc Nat)) : Except BfCompError (List (BfInstruc Nat)) :=
  insertGo s 0 []

/-- BfInstructionStream::optimized_from_text (compiler.rs lines 302-332) for
cell width w: build the raw stream, compute the recommended array size (a
u32 count of IncPtr, at least 30000), reject streams longer than isize::MAX,
then run the three passes. -/
def optimizedFromText (w : Nat) (v : List Nat) (arrayLen : Option Nat) :
    Except BfCompError (List (BfInstruc Nat) × Nat) :=
  if (bfToStream v).length > 2 ^ 63 - 1 then .error .Overflow
  else
    (insertBfJumpPoints (staticOptimize (groupCommonBf w (bfToStream v)))).map
      (fun s2 =>
        (s2, arrayLen.getD
          (max (((bfToStream v).countP (· == BfInstruc.IncPtr)) % U32) 30000)))

/-- True when, scanning the instruction list with d loops already open, some
LEnd arrives with no loop open. -/
def insUnder (d : Nat) : List (BfInstruc Nat) → Bool
  | [] => false
  | x :: r =>
    match x with
    | BfInstruc.LStart _ => insUnder (d + 1) r
    | BfInstruc.LEnd _ => if d = 0 then true else insUnder (d - 1) r
    | _ => insUnder d r

/-- Number of loops still open after scanning the instruction list with d
loops already open. -/
def insDepth (d : Nat) : List (BfInstruc Nat) → Nat
  | [] => d
  | x :: r =>
    match x with
    | BfInstruc.LStart _ => insDepth (d + 1) r
    | BfInstruc.LEnd _ => insDepth (d - 1) r
    | _ => insDepth d r

/-- Lowered executable instructions (ir.rs, enum Executable). -/
inductive Executable where
  | Zero : Executable
  | Inc : Nat → Executable
  | Dec : Nat → Executable
  | IncPtr : Nat → Executable
  | DecPtr : Nat → Executable
  | WLStart : Nat → Executable
  | WLEnd : Nat → Executable
  | LStart : Nat → Executable
  | LEnd : Nat → Executable
  | Read : Executable
  | Write : Executable
  | Multiply : Nat → Executable
deriving DecidableEq, Repr

/-- A deduplicated multiply recipe (ir.rs, struct DistinctMultiply): the
range start and end and the argument list. -/
structure DistinctMultiply where
  lo : Int
  hi : Int
  args : List MulArg
deriving DecidableEq, Repr

/-- The multiply side table with its lookup map (ir.rs, struct
MultiplyCache); the HashMap is modelled as an association list. -/
structure MultiplyCache where
  table : List DistinctMultiply
  index : List (DistinctMultiply × Nat)
deriving DecidableEq, Repr

/-- Lookup in the modelled HashMap of MultiplyCache. -/
def assocFind (dm : DistinctMultiply) : List (DistinctMultiply × Nat) → Option Nat
  | [] => none
  | (k, v) :: rest => if k = dm then some v else assocFind dm rest

/-- MultiplyCache::insert (ir.rs lines 395-406). -/
def MultiplyCache.insert (c : MultiplyCache) (dm : DistinctMultiply) : Nat × MultiplyCache :=
  match assocFind dm c.index with
  | some v => (v, c)
  | none => (c.table.length, ⟨c.table ++ [dm], c.index ++ [(dm, c.table.length)]⟩)

mutual

/-- One node of ITree::synth_inner (ir.rs lines 256-310). Loop reuses a
trailing LEnd of its own body as its end when there is one; If pops its
placeholder when the body came out empty; the usize pointer operands are
stored as u32 (by as u32 in the source). -/
def synthNode (t : ITree) (acc : List Executable × MultiplyCache) :
    List Executable × MultiplyCache :=
  match t with
  | ITree.Zero => (acc.1 ++ [Executable.Zero], acc.2)
  | ITree.Mul lo hi args =>
    let r := acc.2.insert ⟨lo, hi, args⟩
    (acc.1 ++ [Executable.Multiply r.1], r.2)
  | ITree.Inc n => (acc.1 ++ [Executable.Inc n], acc.2)
  | ITree.Dec n => (acc.1 ++ [Executable.Dec n], acc.2)
  | ITree.IncPtr n => (acc.1 ++ [Executable.IncPtr (n % U32)], acc.2)
  | ITree.DecPtr n => (acc.1 ++ [Executable.DecPtr (n % U32)], acc.2)
  | ITree.Read => (acc.1 ++ [Executable.Read], acc.2)
  | ITree.Write => (acc.1 ++ [Executable.Write], acc.2)
  | ITree.Loop ts =>
    let r := synthInner ts (acc.1 ++ [Executable.LStart 0], acc.2)
    (match r.1.getLast? with
     | some (Executable.LEnd _) => (r.1.set acc.1.length (Executable.LStart (r.1.length - 1)), r.2)
     | _ =>
       ((r.1 ++ [Executable.LEnd acc.1.length]).set acc.1.length (Executable.LStart r.1.length),
        r.2))
  | ITree.WriteLoop ts =>
    let r := synthInner ts (acc.1 ++ [Executable.WLStart 0], acc.2)
    ((r.1 ++ [Executable.WLEnd acc.1.length]).set acc.1.length (Executable.WLStart r.1.length),
     r.2)
  | ITree.If ts =>
    let r := synthInner ts (acc.1 ++ [Executable.LStart 0], acc.2)
    if r.1.length - 1 = acc.1.length then (r.1.dropLast, r.2)
    else (r.1.set acc.1.length (Executable.LStart (r.1.length - 1)), r.2)

/-- ITree::synth_inner (ir.rs line 256): lower each node in order. -/
def synthInner (ts : List ITree) (acc : List Executable × MultiplyCache) :
    List Executable × MultiplyCache :=
  match ts with
  | [] => acc
  | t :: rest => synthInner rest (synthNode t acc)

end

/-- ITree::synthesize (ir.rs line 312). -/
def ITree.synthesize (ts : List ITree) : List Executable × MultiplyCache :=
  synthInner ts ([], ⟨[], []⟩)

/-- The property claim C4 asserts of a lowered stream: every loop or
write-loop bracket instruction carries the index of its matching partner,
which carries its index back. -/
def MutualJumps (S : List Executable) : Prop :=
  (∀ i e, S[i]? = some (Executable.LStart e) → S[e]? = some (Executable.LEnd i)) ∧
  (∀ i t, S[i]? = some (Executable.LEnd t) → S[t]? = some (Executable.LStart i)) ∧
  (∀ i e, S[i]? = some (Executable.WLStart e) → S[e]? = some (Executable.WLEnd i)) ∧
  (∀ i t, S[i]? = some (Executable.WLEnd t) → S[t]? = some (Executable.WLStart i))

/-- The same mutual matching property for a flat-pipeline stream. -/
def MutualJumpsFlat (S : List (BfInstruc Nat)) : Prop :=
  (∀ i e, S[i]? = some (BfInstruc.LStart e) → S[e]? = some (BfInstruc.LEnd i)) ∧
  (∀ i t, S[i]? = some (BfInstruc.LEnd t) → S[t]? = some (BfInstruc.LStart i))

/-- What lowering actually guarantees for the part of the stream from
position n on: every LEnd points back to an LStart that points at it, and
write-loop brackets are mutually matched; LStart operands are
unconstrained. -/
def RegionOk (n : Nat) (S : List Executable) : Prop :=
  (∀ i t, n ≤ i → S[i]? = some (Executable.LEnd t) →
    n ≤ t ∧ t < i ∧ S[t]? = some (Executable.LStart i)) ∧
  (∀ i e, n ≤ i → S[i]? = some (Executable.WLStart e) →
    i < e ∧ e < S.length ∧ S[e]? = some (Executable.WLEnd i)) ∧
  (∀ i t, n ≤ i → S[i]? = some (Executable.WLEnd t) →
    n ≤ t ∧ t < i ∧ S[t]? = some (Executable.WLStart i))

/-- ITree::terminates (ir.rs line 152). -/
def ITree.terminates : ITree → Bool
  | ITree.Loop _ => false
  | ITree.WriteLoop _ => false
  | _ => true

/-- ITree::zero_in_loop (ir.rs line 156). -/
def zeroInLoop : List ITree → Bool
  | [ITree.Inc 1] => true
  | [ITree.Dec 1] => true
  | _ => false

/-- ITree::terminating_nested_len (ir.rs line 160): the node count plus,
recursively, the size of every If body. -/
def terminatingNestedLen : List ITree → Nat
  | [] => 0
  | ITree.If children :: rest => 1 + terminatingNestedLen children + terminatingNestedLen rest
  | _ :: rest => 1 + terminatingNestedLen rest

/-- ITree::is_writeloop (ir.rs line 174). -/
def isWriteloop (this : List ITree) : Bool :=
  decide (terminatingNestedLen this < 32) &&
    this.all (fun c => c.terminates && !(c matches ITree.Read)) &&
    this.any (fun c => c matches ITree.Write)

/-- The scratch state of ITree::as_multiply (ir.rs lines 182-236): the
64-cell i64 tape, the head index, and the running bounds. -/
structure MulSim where
  minivm : List Int
  idx : Nat
  lo : Int
  hi : Int
deriving DecidableEq, Repr

/-- ITree::as_multiply main loop (ir.rs lines 190-236): one step per node,
rejecting non-arithmetic nodes, i64 overflow, and head moves off the
64-cell scratch tape; the upper bound is updated on forward moves, the
lower on backward moves. -/
def asMultiplyGo : List ITree → MulSim → Option MulSim
  | [], st => some st
  | ITree.Inc b :: rest, st =>
    (let v := st.minivm.getD st.idx 0 + (b : Int)
     if -(2 ^ 63) ≤ v ∧ v < 2 ^ 63 then
       asMultiplyGo rest { st with minivm := st.minivm.set st.idx v }
     else none)
  | ITree.Dec b :: rest, st =>
    (let v := st.minivm.getD st.idx 0 - (b : Int)
     if -(2 ^ 63) ≤ v ∧ v < 2 ^ 63 then
       asMultiplyGo rest { st with minivm := st.minivm.set st.idx v }
     else none)
  | ITree.IncPtr b :: rest, st =>
    if st.idx + b < U64 then
      (if st.idx + b < 64 then
        asMultiplyGo rest
         { st with
           idx := st.idx + b
           hi := max st.hi ((st.idx + b : Int) - 32) }
       else none)
    else none
  | ITree.DecPtr b :: rest, st =>
    if b ≤ st.idx then
      asMultiplyGo rest
        { st with
          idx := st.idx - b
          lo := min st.lo (((st.idx - b : Nat) : Int) - 32) }
    else none
  | _ :: _, _ => none

/-- The argument extraction of as_multiply (ir.rs lines 239-248): one
MulArg per nonzero scratch cell other than index 32, in index order. -/
def mulArgsOf (vm : List Int) : List MulArg :=
  (List.range vm.length).filterMap (fun i =>
    if vm.getD i 0 ≠ 0 ∧ i ≠ 32 then some ⟨(i : Int) - 32, vm.getD i 0⟩ else none)

/-- ITree::as_multiply (ir.rs line 182). -/
def ITree.asMultiply (this : List ITree) : Option ((Int × Int) × List MulArg) :=
  match asMultiplyGo this ⟨List.replicate 64 0, 32, 0, 0⟩ with
  | none => none
  | some st =>
    if st.idx = 32 ∧ st.minivm.getD 32 0 = -1 then
      some ((st.lo, st.hi), mulArgsOf st.minivm)
    else none

/-- The node filter of claim C6, following the spec's wording: a multiply
body may hold only Inc, Dec, IncPtr and DecPtr nodes. -/
def allowedNode : ITree → Bool
  | ITree.Inc _ => true
  | ITree.Dec _ => true
  | ITree.IncPtr _ => true
  | ITree.DecPtr _ => true
  | _ => false

/-- The simulation of claim C6, following the spec's wording: the same
64-cell i64 scratch run, but tracking the head excursion symmetrically
(both bounds updated on every move). -/
def simSpecGo : List ITree → MulSim → Option MulSim
  | [], st => some st
  | ITree.Inc b :: rest, st =>
    (let v := st.minivm.getD st.idx 0 + (b : Int)
     if -(2 ^ 63) ≤ v ∧ v < 2 ^ 63 then
       simSpecGo rest { st with minivm := st.minivm.set st.idx v }
     else none)
  | ITree.Dec b :: rest, st =>
    (let v := st.minivm.getD st.idx 0 - (b : Int)
     if -(2 ^ 63) ≤ v ∧ v < 2 ^ 63 then
       simSpecGo rest { st with minivm := st.minivm.set st.idx v }
     else none)
  | ITree.IncPtr b :: rest, st =>
    if st.idx + b < U64 then
      (if st.idx + b < 64 then
        simSpecGo rest
         { st with
           idx := st.idx + b
           lo := min st.lo ((st.idx + b : Int) - 32)
           hi := max st.hi ((st.idx + b : Int) - 32) }
       else none)
    else none
  | ITree.DecPtr b :: rest, st =>
    if b ≤ st.idx then
      simSpecGo rest
        { st with
          idx := st.idx - b
          lo := min st.lo (((st.idx - b : Nat) : Int) - 32)
          hi := max st.hi (((st.idx - b : Nat) : Int) - 32) }
    else none
  | _ :: _, _ => none

/-- The multiply predicate as claim C6 words it: the body consists only of
arithmetic and move nodes, the symmetric-excursion simulation succeeds and
returns the head to 32 with the cell there at -1, and the range and the
arguments are extracted from the final scratch state. -/
def asMultiplySpec (this : List ITree) : Option ((Int × Int) × List MulArg) :=
  if this.all allowedNode then
    match simSpecGo this ⟨List.replicate 64 0, 32, 0, 0⟩ with
    | none => none
    | some st =>
      if st.idx = 32 ∧ st.minivm.getD 32 0 = -1 then
        some ((st.lo, st.hi), mulArgsOf st.minivm)
      else none
  else none

/-- rewrite_zero (ir.rs lines 323-333), as a function on the tree. -/
def rewriteZero : List ITree → List ITree
  | [] => []
  | ITree.Loop children :: rest =>
    (if zeroInLoop children then ITree.Zero else ITree.Loop (rewriteZero children))
      :: rewriteZero rest
  | t :: rest => t :: rewriteZero rest

/-- find_if_conditions (ir.rs lines 335-345): children first, then a Loop
whose last child is Zero becomes If. -/
def findIfConditions : List ITree → List ITree
  | [] => []
  | ITree.Loop children :: rest =>
    (match findIfConditions children, (findIfConditions children).getLast? with
     | c2, some ITree.Zero => ITree.If c2
     | c2, _ => ITree.Loop c2) :: findIfConditions rest
  | t :: rest => t :: findIfConditions rest

/-- rewrite_multiply (ir.rs lines 347-357). -/
def rewriteMultiply : List ITree → List ITree
  | [] => []
  | ITree.Loop children :: rest =>
    (match ITree.asMultiply children with
     | some (r, args) => ITree.Mul r.1 r.2 args
     | none => ITree.Loop (rewriteMultiply children)) :: rewriteMultiply rest
  | t :: rest => t :: rewriteMultiply rest

/-- rewrite_write_loops (ir.rs lines 359-369). -/
def rewriteWriteLoops : List ITree → List ITree
  | [] => []
  | ITree.Loop children :: rest =>
    (if isWriteloop children then ITree.WriteLoop children
     else ITree.Loop (rewriteWriteLoops children)) :: rewriteWriteLoops rest
  | t :: rest => t :: rewriteWriteLoops rest

/-- Modelled from the spec: the rewrite driver, missing from the sources,
runs the four passes in the fixed order zero, multiply, if, write-loop
(spec sections 4.3 and 9). -/
def rewriteAll (tree : List ITree) : List ITree :=
  rewriteWriteLoops (findIfConditions (rewriteMultiply (rewriteZero tree)))

/-- Modelled from the spec: the tree pipeline from source text to the
executable stream (spec section 2): tokenize, build the loop tree, rewrite,
lower. -/
def treePipeline (src : List Nat) : Except BfCompError (List Executable × MultiplyCache) :=
  (Token.toTree (Token.parse src)).map (fun t0 => ITree.synthesize (rewriteAll t0))

/-- Runtime error kinds (interpreter.rs, enum BfExecErrorTy); the IO error
payload is dropped. -/
inductive BfExecErrorTy where
  | Overflow : BfExecErrorTy
  | Underflow : BfExecErrorTy
  | InitOverflow : BfExecErrorTy
  | NotEnoughInstructions : BfExecErrorTy
  | IOError : BfExecErrorTy
deriving DecidableEq, Repr

/-- The shared tape state (state.rs, struct BfState): pointer, cells, and
the reader and writer modelled as byte lists. -/
structure BfState where
  ptr : Nat
  cells : List Nat
  input : List Nat
  output : List Nat
deriving DecidableEq, Repr

/-- BfState::get (state.rs line 46, unchecked read under the pointer
invariant). -/
def BfState.get (s : BfState) : Nat := s.cells.getD s.ptr 0

/-- BfState::set (state.rs line 52). -/
def BfState.set (s : BfState) (v : Nat) : BfState := { s with cells := s.cells.set s.ptr v }

/-- BfState::zero (state.rs line 65). -/
def BfState.zero (s : BfState) : BfState := s.set 0

/-- BfState::inc (state.rs line 91) for cell width w. -/
def BfState.inc (w : Nat) (s : BfState) (b : Nat) : BfState := s.set (wAdd w s.get b)

/-- BfState::dec (state.rs line 96) for cell width w. -/
def BfState.dec (w : Nat) (s : BfState) (b : Nat) : BfState := s.set (wSub w s.get b)

/-- BfState::inc_ptr (state.rs lines 101-114): checked usize add, then the
bound check against the cell count. -/
def BfState.incPtr (s : BfState) (b : Nat) : Except BfExecErrorTy BfState :=
  if s.ptr + b < U64 then
    (if s.ptr + b < s.cells.length then .ok { s with ptr := s.ptr + b }
     else .error .Overflow)
  else .error .Overflow

/-- BfState::dec_ptr (state.rs lines 117-126): checked usize sub. -/
def BfState.decPtr (s : BfState) (b : Nat) : Except BfExecErrorTy BfState :=
  if b ≤ s.ptr then .ok { s with ptr := s.ptr - b } else .error .Underflow

/-- BfState::write (state.rs line 70): push the low byte of the cell. -/
def BfState.write (s : BfState) : BfState := { s with output := s.output ++ [s.get % 256] }

/-- BfState::read (state.rs line 79): flush (no effect on the byte list),
read one byte leaving zero on EOF, and store it zero-extended. -/
def BfState.read (s : BfState) : BfState :=
  { s.set (s.input.headD 0) with input := s.input.tail }

/-- BfState::jump_forward (state.rs line 129). -/
def BfState.jumpForward (s : BfState) : Bool := s.get == 0

/-- BfState::jump_backward (state.rs line 134). -/
def BfState.jumpBackward (s : BfState) : Bool := s.get != 0

/-- checked_add_signed on a usize. -/
def checkedAddSigned (p : Nat) (d : Int) : Option Nat :=
  if 0 ≤ (p : Int) + d ∧ (p : Int) + d < (U64 : Int) then some ((p : Int) + d).toNat
  else none

/-- Wrapping of an integer into the i64 range, as the product by * diff in
BfState::mul wraps in release builds. -/
def i64wrap (x : Int) : Int := (x + 2 ^ 63).emod (2 ^ 64) - 2 ^ 63

/-- Modelled from the spec: the cell add method BfState::mul calls is part
of the BfOptimizable trait and is missing from the sources; per spec
section 4.5 it adds the truncated product into the cell in the cell
width's wrapping arithmetic. -/
def cellAdd (w : Nat) (c : Nat) (x : Int) : Nat := (((c : Int) + x).emod (2 ^ w)).toNat

/-- One argument update of BfState::mul (state.rs lines 160-164): add the
wrapped product of the saved head value v and the delta into the cell at
the unchecked signed offset from the pointer. -/
def mulStep (w : Nat) (v : Int) (st : BfState) (a : MulArg) : BfState :=
  (let j := ((st.ptr : Int) + a.offset).toNat
   { st with cells := st.cells.set j (cellAdd w (st.cells.getD j 0) (i64wrap (v * a.change))) })

/-- BfState::mul (state.rs lines 139-167): bounds checks on the recipe
range against the tape, then zero the head cell and fold the argument
updates over the cells. -/
def BfState.mul (w : Nat) (s : BfState) (lo hi : Int) (args : List MulArg) :
    Except BfExecErrorTy BfState :=
  match checkedAddSigned s.ptr lo with
  | none => .error .Underflow
  | some lower =>
    match checkedAddSigned s.ptr hi with
    | none => .error .Underflow
    | some upper =>
      if lower < s.cells.length then
        (if upper < s.cells.length then .ok (args.foldl (mulStep w s.get) s.zero)
         else .error .Overflow)
      else .error .Overflow

/-- The executor state of interpreter.rs (struct BrainFuckExecutor): tape,
pointer, and the byte streams; the instruction budget and the flush clock
are handled separately. -/
structure ExecSt where
  ptr : Nat
  data : List Nat
  input : List Nat
  output : List Nat
deriving DecidableEq, Repr

/-- BrainFuckExecutor::inc_ptr_by (interpreter.rs lines 239-246): the
unchecked usize add wraps, and an out-of-bounds result is rolled back. -/
def incPtrBy (e : ExecSt) (v : Nat) : Except BfExecErrorTy ExecSt :=
  (let p := (e.ptr + v) % U64
   if e.data.length ≤ p then .error .Overflow else .ok { e with ptr := p })

/-- BrainFuckExecutor::dec_ptr_by (interpreter.rs lines 249-252). -/
def decPtrBy (e : ExecSt) (v : Nat) : Except BfExecErrorTy ExecSt :=
  if v ≤ e.ptr then .ok { e with ptr := e.ptr - v } else .error .Underflow

/-- One instruction of BrainFuckExecutor::internal_run (interpreter.rs
lines 307-355): the match body inside the while loop, returning the updated
executor state and the updated index (before the trailing idx += 1); jumps
overwrite the index, everything else keeps it. Pointer-moving instructions
are the only fallible ones here (the reader and writer are lists and never
fail). -/
def execInstr (w : Nat) (e : ExecSt) (idx : Nat) :
    BfInstruc Nat → Except BfExecErrorTy (ExecSt × Nat)
  | .Zero => .ok ({ e with data := e.data.set e.ptr 0 }, idx)
  | .Inc => .ok ({ e with data := e.data.set e.ptr (wAdd w (e.data.getD e.ptr 0) 1) }, idx)
  | .Dec => .ok ({ e with data := e.data.set e.ptr (wSub w (e.data.getD e.ptr 0) 1) }, idx)
  | .IncPtr => (incPtrBy e 1).map (fun e2 => (e2, idx))
  | .DecPtr => (decPtrBy e 1).map (fun e2 => (e2, idx))
  | .Write => .ok ({ e with output := e.output ++ [e.data.getD e.ptr 0 % 256] }, idx)
  | .Read =>
    (match e.input with
     | [] => .ok ({ e with data := e.data.set e.ptr (0 % 2 ^ w) }, idx)
     | b :: rest =>
       .ok ({ e with
              data := e.data.set e.ptr (b % 2 ^ w)
              input := rest }, idx))
  | .LStart t => .ok (e, if e.data.getD e.ptr 0 = 0 then t else idx)
  | .LEnd t => .ok (e, if e.data.getD e.ptr 0 ≠ 0 then t else idx)
  | .IncBy v => .ok ({ e with data := e.data.set e.ptr (wAdd w (e.data.getD e.ptr 0) v) }, idx)
  | .DecBy v => .ok ({ e with data := e.data.set e.ptr (wSub w (e.data.getD e.ptr 0) v) }, idx)
  | .IncPtrBy v => (incPtrBy e v).map (fun e2 => (e2, idx))
  | .DecPtrBy v => (decPtrBy e v).map (fun e2 => (e2, idx))

/-- Results of a limited interpreter run: normal completion with the
leftover budget, or an error carrying the executor state, the instruction
index of BfExecError, the remaining budget and the error kind. -/
inductive RunRes where
  | ok : ExecSt → Nat → RunRes
  | err : ExecSt → Nat → Nat → BfExecErrorTy → RunRes
deriving DecidableEq, Repr

/-- The while loop of internal_run::<true> (interpreter.rs lines 301-363):
the bounds test on the index, the loop-top budget check, one instruction,
then idx += 1 and the budget decrement. -/
def runLimitedGo (w : Nat) (stream : List (BfInstruc Nat)) (limit : Nat) (e : ExecSt)
    (idx : Nat) : RunRes :=
  if h : idx < stream.length then
    match limit with
    | 0 => .err e idx 0 .NotEnoughInstructions
    | limit2 + 1 =>
      match execInstr w e idx stream[idx] with
      | .error t => .err e idx (limit2 + 1) t
      | .ok (e2, idx2) => runLimitedGo w stream limit2 e2 (idx2 + 1)
  else .ok e limit

/-- internal_run::<true> (interpreter.rs lines 277-367): the InitOverflow
pointer check, the pre-loop budget check (taken even when the index is
already past the end), then the loop. run_limited starts it at index 0,
run_limited_from at the caller's index. -/
def internalRunLimited (w : Nat) (stream : List (BfInstruc Nat)) (limit : Nat) (e : ExecSt)
    (idx : Nat) : RunRes :=
  if e.data.length ≤ e.ptr then .err e idx limit .InitOverflow
  else if limit = 0 then .err e idx 0 .NotEnoughInstructions
  else runLimitedGo w stream limit e idx

/-- The while loop of internal_run::<false> (the unlimited run), made total
with fuel: one unit per executed instruction; none means the run has not
terminated within the fuel. -/
def runGo (w : Nat) (stream : List (BfInstruc Nat)) (fuel : Nat) (e : ExecSt) (idx : Nat) :
    Option (Except (ExecSt × Nat × BfExecErrorTy) ExecSt) :=
  if h : idx < stream.length then
    match fuel with
    | 0 => none
    | fuel2 + 1 =>
      match execInstr w e idx stream[idx] with
      | .error t => some (.error (e, idx, t))
      | .ok (e2, idx2) => runGo w stream fuel2 e2 (idx2 + 1)
  else some (.ok e)

/-- internal_run::<false> (BrainFuckExecutor::run): the InitOverflow check,
then the unlimited loop. -/
def internalRun (w : Nat) (stream : List (BfInstruc Nat)) (fuel : Nat) (e : ExecSt)
    (idx : Nat) : Option (Except (ExecSt × Nat × BfExecErrorTy) ExecSt) :=
  if e.data.length ≤ e.ptr then some (.error (e, idx, .InitOverflow))
  else runGo w stream fuel e idx

/-- The resumption protocol of spec section 5: run_limited with the first
budget; on NotEnoughInstructions refill with the next budget and
run_limited_from at the reported index; any other outcome is final. -/
def runSlices (w : Nat) (stream : List (BfInstruc Nat)) :
    List Nat → ExecSt → Nat → RunRes
  | [], e, idx => internalRunLimited w stream 0 e idx
  | [b], e, idx => internalRunLimited w stream b e idx
  | b :: b2 :: bs, e, idx =>
    match internalRunLimited w stream b e idx with
    | .err e2 idx2 _ .NotEnoughInstructions => runSlices w stream (b2 :: bs) e2 idx2
    | r => r

/-- InterpreterStream::run (ir.rs lines 440-510), made total with fuel (one
unit per loop iteration): the tree-pipeline interpreter over the lowered
stream and the multiply side table, carrying the local 32-byte write buffer
(modelled as the list of its first cursor bytes) and the write-loop flag.
Inside a write loop, Write goes through the buffer (flushing all 32 bytes
to the writer when it is full) and a normally-exited WLEnd soft-flushes it;
an error returns the tape state, the index and the kind, abandoning the
buffered bytes exactly as the source drops the local buffer. Inc and Dec
use the spec-modelled truncate_from (reduction into the cell width). -/
def interpRun (w : Nat) (prog : List Executable) (table : List DistinctMultiply)
    (fuel : Nat) (s : BfState) (wbuf : List Nat) (wloop : Bool) (idx : Nat) :
    Option (Except (BfState × Nat × BfExecErrorTy) BfState) :=
  if h : idx < prog.length then
    match fuel with
    | 0 => none
    | fuel2 + 1 =>
      match prog[idx] with
      | .Zero => interpRun w prog table fuel2 s.zero wbuf wloop (idx + 1)
      | .Inc b => interpRun w prog table fuel2 (s.inc w (b % 2 ^ w)) wbuf wloop (idx + 1)
      | .Dec b => interpRun w prog table fuel2 (s.dec w (b % 2 ^ w)) wbuf wloop (idx + 1)
      | .IncPtr b =>
        (match s.incPtr b with
         | .error t => some (.error (s, idx, t))
         | .ok s2 => interpRun w prog table fuel2 s2 wbuf wloop (idx + 1))
      | .DecPtr b =>
        (match s.decPtr b with
         | .error t => some (.error (s, idx, t))
         | .ok s2 => interpRun w prog table fuel2 s2 wbuf wloop (idx + 1))
      | .WLStart t =>
        (if s.jumpForward then interpRun w prog table fuel2 s wbuf wloop (t + 1)
         else interpRun w prog table fuel2 s wbuf true (idx + 1))
      | .WLEnd t =>
        (if s.jumpBackward then interpRun w prog table fuel2 s wbuf wloop (t + 1)
         else interpRun w prog table fuel2
           { s with output := s.output ++ wbuf } [] false (idx + 1))
      | .LStart t =>
        interpRun w prog table fuel2 s wbuf wloop ((if s.jumpForward then t else idx) + 1)
      | .LEnd t =>
        interpRun w prog table fuel2 s wbuf wloop ((if s.jumpBackward then t else idx) + 1)
      | .Read => interpRun w prog table fuel2 s.read wbuf wloop (idx + 1)
      | .Write =>
        (if wloop then
          (if wbuf.length = 32 then
            interpRun w prog table fuel2
              { s with output := s.output ++ wbuf } [s.get % 256] wloop (idx + 1)
           else interpRun w prog table fuel2 s (wbuf ++ [s.get % 256]) wloop (idx + 1))
         else interpRun w prog table fuel2 s.write wbuf wloop (idx + 1))
      | .Multiply i =>
        (let dm := table.getD i ⟨0, 0, []⟩
         match s.mul w dm.lo dm.hi dm.args with
         | .error t => some (.error (s, idx, t))
         | .ok s2 => interpRun w prog table fuel2 s2 wbuf wloop (idx + 1))
  else some (.ok s)

/-- InterpreterStream::run from the top: index 0, empty buffer, write-loop
flag down. -/
def interpreterStreamRun (w : Nat) (prog : List Executable) (table : List DistinctMultiply)
    (fuel : Nat) (s : BfState) : Option (Except (BfState × Nat × BfExecErrorTy) BfState) :=
  interpRun w prog table fuel s [] false 0

/-- Lookup in the modelled jump cache HashMap of stupid.rs (usize keys). -/
def natAssoc (k : Nat) : List (Nat × Nat) → Option Nat
  | [] => none
  | (a, b) :: rest => if a = k then some b else natAssoc k rest

/-- The scan loop of BfState::lstart_jump (stupid.rs lines 67-100): walk
forward from the loop start, pushing loop starts and matching loop ends,
caching every matched pair; the matching end of the starting bracket ends
the scan, running off the input is LoopCountMismatch. -/
def lstartScan (input : List Nat) (cur : Nat) (iter : List Nat) (cache : List (Nat × Nat)) :
    Except BfCompError (Nat × List (Nat × Nat)) :=
  if h : cur < input.length then
    if input[cur] = 91 then lstartScan input (cur + 1) (cur :: iter) cache
    else if input[cur] = 93 then
      match iter with
      | [] => lstartScan input (cur + 1) [] cache
      | e :: iter2 =>
        (let cache2 := cache ++ [(cur, e), (e, cur)]
         if iter2.isEmpty then .ok (cur, cache2)
         else lstartScan input (cur + 1) iter2 cache2)
    else lstartScan input (cur + 1) iter cache
  else .error .LoopCountMismatch
termination_by input.length - cur

/-- BfState::lstart_jump (stupid.rs lines 67-100): the cache first, then the
scan with a cleared bracket stack. -/
def lstartJump (input : List Nat) (cur : Nat) (cache : List (Nat × Nat)) :
    Except BfCompError (Nat × List (Nat × Nat)) :=
  match natAssoc cur cache with
  | some j => .ok (j, cache)
  | none => lstartScan input cur [] cache

/-- The scan loop of BfState::lend_jump (stupid.rs lines 102-135): walk
backward from the loop end, pushing loop ends and matching loop starts,
caching every matched pair; the matching start of the starting bracket ends
the scan, falling off index 0 is LoopEndBeforeLoopStart. -/
def lendScan (input : List Nat) : Nat → List Nat → List (Nat × Nat) →
    Except BfCompError (Nat × List (Nat × Nat))
  | 0, iter, cache =>
    (if input.getD 0 0 = 91 then
      match iter with
      | [] => .error .LoopEndBeforeLoopStart
      | e :: iter2 =>
        (let cache2 := cache ++ [(0, e), (e, 0)]
         if iter2.isEmpty then .ok (0, cache2) else .error .LoopEndBeforeLoopStart)
     else .error .LoopEndBeforeLoopStart)
  | cur2 + 1, iter, cache =>
    if input.getD (cur2 + 1) 0 = 93 then lendScan input cur2 ((cur2 + 1) :: iter) cache
    else if input.getD (cur2 + 1) 0 = 91 then
      match iter with
      | [] => lendScan input cur2 [] cache
      | e :: iter2 =>
        (let cache2 := cache ++ [(cur2 + 1, e), (e, cur2 + 1)]
         if iter2.isEmpty then .ok (cur2 + 1, cache2)
         else lendScan input cur2 iter2 cache2)
    else lendScan input cur2 iter cache

/-- BfState::lend_jump (stupid.rs lines 102-135): the cache first, then the
scan with a cleared bracket stack. -/
def lendJump (input : List Nat) (cur : Nat) (cache : List (Nat × Nat)) :
    Except BfCompError (Nat × List (Nat × Nat)) :=
  match natAssoc cur cache with
  | some j => .ok (j, cache)
  | none => lendScan input cur [] cache

/-- The while loop of stupid.rs BfState::run (lines 137-195), made total
with fuel: the 1:1 interpreter over the raw program bytes, writing each
output byte straight to the writer and threading the lazy jump cache; an
error returns the state, the index and either the runtime or the bracket
error. -/
def stupidRun (w : Nat) (input : List Nat) (fuel : Nat) (s : ExecSt)
    (cache : List (Nat × Nat)) (idx : Nat) :
    Option (Except ((ExecSt × Nat × BfExecErrorTy) ⊕ BfCompError) ExecSt) :=
  if h : idx < input.length then
    match fuel with
    | 0 => none
    | fuel2 + 1 =>
      if input[idx] = 43 then
        stupidRun w input fuel2
          { s with data := s.data.set s.ptr (wAdd w (s.data.getD s.ptr 0) 1) } cache (idx + 1)
      else if input[idx] = 45 then
        stupidRun w input fuel2
          { s with data := s.data.set s.ptr (wSub w (s.data.getD s.ptr 0) 1) } cache (idx + 1)
      else if input[idx] = 62 then
        match incPtrBy s 1 with
        | .error t => some (.error (.inl (s, idx, t)))
        | .ok s2 => stupidRun w input fuel2 s2 cache (idx + 1)
      else if input[idx] = 60 then
        match decPtrBy s 1 with
        | .error t => some (.error (.inl (s, idx, t)))
        | .ok s2 => stupidRun w input fuel2 s2 cache (idx + 1)
      else if input[idx] = 91 then
        (if s.data.getD s.ptr 0 = 0 then
          match lstartJump input idx cache with
          | .error ce => some (.error (.inr ce))
          | .ok (j, cache2) => stupidRun w input fuel2 s cache2 (j + 1)
         else stupidRun w input fuel2 s cache (idx + 1))
      else if input[idx] = 93 then
        (if s.data.getD s.ptr 0 ≠ 0 then
          match lendJump input idx cache with
          | .error ce => some (.error (.inr ce))
          | .ok (j, cache2) => stupidRun w input fuel2 s cache2 (j + 1)
         else stupidRun w input fuel2 s cache (idx + 1))
      else if input[idx] = 44 then
        stupidRun w input fuel2
          { s with
            data := s.data.set s.ptr (s.input.headD 0)
            input := s.input.tail } cache (idx + 1)
      else if input[idx] = 46 then
        stupidRun w input fuel2
          { s with output := s.output ++ [s.data.getD s.ptr 0 % 256] } cache (idx + 1)
      else stupidRun w input fuel2 s cache (idx + 1)
  else some (.ok s)

/-- stupid.rs BfState::run from the top: the InitOverflow pointer check,
then the loop with an empty cache from index 0 (the trailing writer flush
has no effect on a list writer). -/
def stupidRunTop (w : Nat) (input : List Nat) (fuel : Nat) (s : ExecSt) :
    Option (Except ((ExecSt × Nat × BfExecErrorTy) ⊕ BfCompError) ExecSt) :=
  if s.data.length ≤ s.ptr then some (.error (.inl (s, 0, .InitOverflow)))
  else stupidRun w input fuel s [] 0

-- ===================== THEOREMS =====================

theorem U32_eq : U32 = 4294967296 := by norm_num [U32]

theorem U64_eq : U64 = 18446744073709551616 := by norm_num [U64]

theorem parseGo_eq_spec : ∀ l : List Nat, l.length < U32 → parseGo l = parseSpecGo l := by
  intro l
  induction l using parseGo.induct with
  | case1 => intro _; rw [parseGo.eq_def, parseSpecGo.eq_def]
  | case2 rest ih =>
    intro hlen
    simp only [List.length_cons] at hlen
    rw [parseGo.eq_def, parseSpecGo.eq_def]
    norm_num
    exact ih (by omega)
  | case3 rest h1 ih =>
    intro hlen
    simp only [List.length_cons] at hlen
    rw [parseGo.eq_def, parseSpecGo.eq_def]
    norm_num
    exact ih (by omega)
  | case4 c d rest2 hcd h1 h2 ih =>
    intro hlen
    simp only [List.length_cons] at hlen
    rw [parseGo.eq_def, parseSpecGo.eq_def]
    norm_num [if_pos hcd]
    exact ih (by omega)
  | case5 c d rest2 hcd h1 h2 ih =>
    intro hlen
    simp only [List.length_cons] at hlen
    rw [parseGo.eq_def, parseSpecGo.eq_def]
    norm_num [if_neg hcd]
    exact ih (by simp only [List.length_cons]; omega)
  | case6 h1 h2 ih =>
    intro _
    rw [parseGo.eq_def, parseSpecGo.eq_def]
    norm_num
    exact ih (by rw [U32_eq]; norm_num)
  | case7 c h1 h2 ih =>
    intro _
    rw [parseGo.eq_def, parseSpecGo.eq_def]
    norm_num
    exact ih (by rw [U32_eq]; norm_num)
  | case8 rest h1 h2 h3 ih =>
    intro hlen
    simp only [List.length_cons] at hlen
    rw [parseGo.eq_def, parseSpecGo.eq_def]
    norm_num
    exact ih (by omega)
  | case9 b rest h46 h44 h91 h93 hrun cnt ih =>
    intro hlen
    simp only [List.length_cons] at hlen
    have hc : cnt = 1 + (rest.takeWhile (· == b)).length := rfl
    simp only [hc] at ih
    have htw : (rest.takeWhile (· == b)).length ≤ rest.length :=
      (List.takeWhile_sublist _).length_le
    have hcount : (1 + (rest.takeWhile (· == b)).length) % U32
        = 1 + (rest.takeWhile (· == b)).length := by
      apply Nat.mod_eq_of_lt
      rw [U32_eq] at hlen ⊢
      omega
    rw [parseGo.eq_def, parseSpecGo.eq_def]
    simp only [if_neg h46, if_neg h44, if_neg h91, if_neg h93, if_pos hrun]
    rw [ih (by simp only [List.length_drop]; rw [U32_eq] at hlen ⊢; omega), hcount]
  | case10 b rest h46 h44 h91 h93 hrun ih =>
    intro hlen
    simp only [List.length_cons] at hlen
    rw [parseGo.eq_def, parseSpecGo.eq_def]
    simp only [if_neg h46, if_neg h44, if_neg h91, if_neg h93, if_neg hrun]
    exact ih (by omega)

/-- Claim C7: for every input byte sequence (of machine-representable run
lengths, length below 2^32), Token::parse skips non-program bytes, collapses
maximal runs of the four repeatable bytes into single run-length tokens,
collapses a loop that just increments or decrements once into Zero, and maps
the remaining program bytes one to one, in input order. -/
theorem claim_C7 (data : List Nat) (h : data.length < U32) :
    Token.parse data = Token.parseSpec data := by
  unfold Token.parse Token.parseSpec
  exact parseGo_eq_spec _ (lt_of_le_of_lt (List.length_filter_le _ _) h)

/-- Witness for claim C7 at a concrete input: the source "a+b[-]>>x,."
(bytes with comments interleaved). -/
theorem claim_C7_witness :
    [97, 43, 98, 91, 45, 93, 62, 62, 120, 44, 46].length < U32 ∧
      Token.parse [97, 43, 98, 91, 45, 93, 62, 62, 120, 44, 46]
        = Token.parseSpec [97, 43, 98, 91, 45, 93, 62, 62, 120, 44, 46] :=
  ⟨by decide, claim_C7 [97, 43, 98, 91, 45, 93, 62, 62, 120, 44, 46] (by decide)⟩


theorem toTreeGo_classify : ∀ (ts : List Token) (cur : List ITree) (ctx : List (List ITree)),
    (toTreeGo ts cur ctx = .error .LoopEndBeforeLoopStart ↔ tokUnder ctx.length ts = true) ∧
    (toTreeGo ts cur ctx = .error .LoopCountMismatch ↔
      (tokUnder ctx.length ts = false ∧ tokDepth ctx.length ts ≠ 0)) ∧
    ((∃ r, toTreeGo ts cur ctx = .ok r) ↔
      (tokUnder ctx.length ts = false ∧ tokDepth ctx.length ts = 0)) := by
  intro ts
  induction ts with
  | nil =>
    intro cur ctx
    cases ctx with
    | nil => simp [toTreeGo, tokUnder, tokDepth]
    | cons p ctx2 => simp [toTreeGo, tokUnder, tokDepth]
  | cons t rest ih =>
    intro cur ctx
    cases t with
    | Zero => simpa [toTreeGo, tokUnder, tokDepth] using ih (cur ++ [ITree.Zero]) ctx
    | Inc n => simpa [toTreeGo, tokUnder, tokDepth] using ih (cur ++ [ITree.Inc n]) ctx
    | Dec n => simpa [toTreeGo, tokUnder, tokDepth] using ih (cur ++ [ITree.Dec n]) ctx
    | IncPtr n => simpa [toTreeGo, tokUnder, tokDepth] using ih (cur ++ [ITree.IncPtr n]) ctx
    | DecPtr n => simpa [toTreeGo, tokUnder, tokDepth] using ih (cur ++ [ITree.DecPtr n]) ctx
    | Read => simpa [toTreeGo, tokUnder, tokDepth] using ih (cur ++ [ITree.Read]) ctx
    | Write => simpa [toTreeGo, tokUnder, tokDepth] using ih (cur ++ [ITree.Write]) ctx
    | LStart => simpa [toTreeGo, tokUnder, tokDepth] using ih [] (cur :: ctx)
    | LEnd =>
      cases ctx with
      | nil => simp [toTreeGo, tokUnder, tokDepth]
      | cons parent ctx2 =>
        simpa [toTreeGo, tokUnder, tokDepth] using ih (parent ++ [ITree.Loop cur]) ctx2


theorem drop_set_of_lt {α : Type} (l : List α) (i n : Nat) (a : α) (h : i < n) :
    (l.set i a).drop n = l.drop n := by
  apply List.ext_getElem?
  intro k
  rw [List.getElem?_drop, List.getElem?_drop, List.getElem?_set_ne (by omega)]

theorem insertGo_classify :
    ∀ (s : List (BfInstruc Nat)) (idx : Nat) (stack : List Nat),
    (∀ v ∈ stack, v < idx) →
    ((insertGo s idx stack = .error .LoopEndBeforeLoopStart ↔
        insUnder stack.length (s.drop idx) = true) ∧
     (insertGo s idx stack = .error .LoopCountMismatch ↔
        (insUnder stack.length (s.drop idx) = false ∧ insDepth stack.length (s.drop idx) ≠ 0)) ∧
     ((∃ r, insertGo s idx stack = .ok r) ↔
        (insUnder stack.length (s.drop idx) = false ∧ insDepth stack.length (s.drop idx) = 0))) := by
  intro s idx stack
  induction s, idx, stack using insertGo.induct with
  | case1 s idx stack h a hx ih =>
    intro hst
    have hih := ih (by
      intro v hv
      rcases List.mem_cons.mp hv with hv1 | hv2
      · omega
      · exact Nat.lt_succ_of_lt (hst v hv2))
    have hgo : insertGo s idx stack = insertGo s (idx + 1) (idx :: stack) := by
      rw [insertGo.eq_def]
      simp only [dif_pos h, hx]
    have hd : s.drop idx = BfInstruc.LStart a :: s.drop (idx + 1) := by
      rw [List.drop_eq_getElem_cons h, hx]
    rw [hgo, hd]
    simp only [insUnder, List.length_cons] at hih ⊢
    simpa [insUnder, insDepth] using hih
  | case2 s idx h a hx =>
    intro _
    have hgo : insertGo s idx [] = .error .LoopEndBeforeLoopStart := by
      rw [insertGo.eq_def]
      simp only [dif_pos h, hx]
    have hd : s.drop idx = BfInstruc.LEnd a :: s.drop (idx + 1) := by
      rw [List.drop_eq_getElem_cons h, hx]
    rw [hgo, hd]
    simp [insUnder, insDepth]
  | case3 s idx h a hx b rest ih =>
    intro hst
    have hb : b < idx := hst b (List.mem_cons_self b rest)
    have hih := ih (by
      intro v hv
      exact Nat.lt_succ_of_lt (hst v (List.mem_cons_of_mem b hv)))
    have hgo : insertGo s idx (b :: rest) =
        insertGo ((s.set b (BfInstruc.LStart idx)).set idx (BfInstruc.LEnd b)) (idx + 1) rest := by
      rw [insertGo.eq_def]
      simp only [dif_pos h, hx]
    have hdrop2 : ((s.set b (BfInstruc.LStart idx)).set idx (BfInstruc.LEnd b)).drop (idx + 1)
        = s.drop (idx + 1) := by
      rw [drop_set_of_lt _ _ _ _ (Nat.lt_succ_self idx),
        drop_set_of_lt _ _ _ _ (Nat.lt_succ_of_lt hb)]
    have hd : s.drop idx = BfInstruc.LEnd a :: s.drop (idx + 1) := by
      rw [List.drop_eq_getElem_cons h, hx]
    rw [hdrop2] at hih
    rw [hgo, hd]
    simp only [List.length_cons] at hih ⊢
    simpa [insUnder, insDepth] using hih
  | case4 s idx stack h hnS hnE ih =>
    intro hst
    have hih := ih (fun v hv => Nat.lt_succ_of_lt (hst v hv))
    have hd : s.drop idx = s[idx] :: s.drop (idx + 1) := List.drop_eq_getElem_cons h
    rcases hval : s[idx] with _ | _ | _ | _ | _ | _ | _ | a | a | c | c | n | n
    all_goals first
      | exact (hnS _ hval).elim
      | exact (hnE _ hval).elim
      | (have hgo : insertGo s idx stack = insertGo s (idx + 1) stack := by
           rw [insertGo.eq_def]
           simp only [dif_pos h, hval]
         rw [hgo, hd, hval]
         simpa [insUnder, insDepth] using hih)
  | case5 s idx stack h hem =>
    intro _
    have hgo : insertGo s idx stack = .ok s := by
      rw [insertGo.eq_def]
      simp only [dif_neg h, if_pos hem]
    have hd : s.drop idx = [] := List.drop_eq_nil_of_le (by omega)
    have hsl : stack = [] := List.isEmpty_iff.mp hem
    rw [hgo, hd, hsl]
    simp [insUnder, insDepth]
  | case6 s idx stack h hem =>
    intro _
    have hgo : insertGo s idx stack = .error .LoopCountMismatch := by
      rw [insertGo.eq_def]
      simp only [dif_neg h, if_neg hem]
    have hd : s.drop idx = [] := List.drop_eq_nil_of_le (by omega)
    have hsl : stack.length ≠ 0 := by
      intro hc
      exact hem (List.isEmpty_iff.mpr (List.length_eq_zero.mp hc))
    rw [hgo, hd]
    simp [insUnder, insDepth, hsl]

theorem insertGo_ne_overflow :
    ∀ (s : List (BfInstruc Nat)) (idx : Nat) (stack : List Nat),
    insertGo s idx stack ≠ .error .Overflow := by
  intro s idx stack
  induction s, idx, stack using insertGo.induct with
  | case1 s idx stack h a hx ih =>
    rw [insertGo.eq_def]
    simpa only [dif_pos h, hx] using ih
  | case2 s idx h a hx =>
    rw [insertGo.eq_def]
    simp only [dif_pos h, hx]
    intro hc
    exact absurd (Except.error.inj hc) (by intro hc2; cases hc2)
  | case3 s idx h a hx b rest ih =>
    rw [insertGo.eq_def]
    simpa only [dif_pos h, hx] using ih
  | case4 s idx stack h hnS hnE ih =>
    rw [insertGo.eq_def]
    rcases hval : s[idx] with _ | _ | _ | _ | _ | _ | _ | a | a | c | c | n | n
    all_goals first
      | exact (hnS _ hval).elim
      | exact (hnE _ hval).elim
      | simpa only [dif_pos h, hval] using ih
  | case5 s idx stack h hem =>
    rw [insertGo.eq_def]
    simp [dif_neg h, List.isEmpty_iff.mp hem]
  | case6 s idx stack h hem =>
    rw [insertGo.eq_def]
    simp only [dif_neg h, if_neg hem]
    intro hc
    exact absurd (Except.error.inj hc) (by intro hc2; cases hc2)


/-- Claim C8: for both the tree builder Token::to_tree and the flat jump
resolver insert_bf_jump_points, the result is LoopEndBeforeLoopStart exactly
when a loop end arrives while no loop is open, LoopCountMismatch exactly
when the input ends with at least one loop still open (and no earlier
premature loop end), and a success otherwise. -/
theorem claim_C8 :
    (∀ ts : List Token,
      (Token.toTree ts = .error .LoopEndBeforeLoopStart ↔ tokUnder 0 ts = true) ∧
      (Token.toTree ts = .error .LoopCountMismatch ↔
        (tokUnder 0 ts = false ∧ tokDepth 0 ts ≠ 0)) ∧
      ((∃ r, Token.toTree ts = .ok r) ↔ (tokUnder 0 ts = false ∧ tokDepth 0 ts = 0))) ∧
    (∀ s : List (BfInstruc Nat),
      (insertBfJumpPoints s = .error .LoopEndBeforeLoopStart ↔ insUnder 0 s = true) ∧
      (insertBfJumpPoints s = .error .LoopCountMismatch ↔
        (insUnder 0 s = false ∧ insDepth 0 s ≠ 0)) ∧
      ((∃ r, insertBfJumpPoints s = .ok r) ↔ (insUnder 0 s = false ∧ insDepth 0 s = 0))) := by
  constructor
  · intro ts
    simpa using toTreeGo_classify ts [] []
  · intro s
    simpa using insertGo_classify s 0 [] (by simp)

/-- Claim C9: compilation returns the compile error Overflow exactly when
the instruction stream built from the program text is longer than
isize::MAX = 2^63 - 1; streams at or below that bound are never rejected
for size. -/
theorem claim_C9 (w : Nat) (v : List Nat) (arrayLen : Option Nat) :
    optimizedFromText w v arrayLen = .error .Overflow ↔
      2 ^ 63 - 1 < (bfToStream v).length := by
  constructor
  · intro hc
    by_contra hlen
    simp only [not_lt] at hlen
    have hno := insertGo_ne_overflow (staticOptimize (groupCommonBf w (bfToStream v))) 0 []
    unfold optimizedFromText at hc
    rw [if_neg (by omega)] at hc
    have hins : insertBfJumpPoints (staticOptimize (groupCommonBf w (bfToStream v)))
        = insertGo (staticOptimize (groupCommonBf w (bfToStream v))) 0 [] := rfl
    rw [hins] at hc
    cases hres : insertGo (staticOptimize (groupCommonBf w (bfToStream v))) 0 [] with
    | ok s2 =>
      rw [hres] at hc
      exact absurd hc (by simp [Except.map])
    | error e =>
      rw [hres] at hc
      simp only [Except.map] at hc
      have he : e = BfCompError.Overflow := by
        cases hc
        rfl
      rw [he] at hres
      exact hno hres
  · intro hlen
    unfold optimizedFromText
    rw [if_pos (by omega)]


theorem getElem?_mid {α : Type} (S : List α) (v : α) (D : List α) (i : Nat) :
    (S ++ v :: D)[i]? =
      if i < S.length then S[i]? else if i = S.length then some v else D[i - S.length - 1]? := by
  rcases Nat.lt_trichotomy i S.length with h | h | h
  · rw [List.getElem?_append_left h, if_pos h]
  · subst h
    rw [List.getElem?_append_right (le_refl _)]
    simp
  · rw [List.getElem?_append_right (by omega), if_neg (by omega), if_neg (by omega)]
    have : i - S.length = (i - S.length - 1) + 1 := by omega
    rw [this]
    simp

theorem getElem?_snoc {α : Type} (D : List α) (w : α) (k : Nat) :
    (D ++ [w])[k]? = if k < D.length then D[k]? else if k = D.length then some w else none := by
  rcases Nat.lt_trichotomy k D.length with h | h | h
  · rw [List.getElem?_append_left h, if_pos h]
  · subst h
    simp [List.getElem?_concat_length]
  · rw [List.getElem?_append_right (by omega), if_neg (by omega), if_neg (by omega)]
    rw [List.getElem?_eq_none]
    simp
    omega

theorem set_append_cons {α : Type} (l1 : List α) (x a : α) (l2 : List α) :
    (l1 ++ x :: l2).set l1.length a = l1 ++ a :: l2 := by
  induction l1 with
  | nil => rfl
  | cons y ys ih => simpa [List.set] using ih

theorem regionOk_refl (S : List Executable) : RegionOk S.length S := by
  refine ⟨?_, ?_, ?_⟩ <;>
    (intro i t hi hv
     have hnone : S[i]? = none := List.getElem?_eq_none hi
     rw [hnone] at hv
     cases hv)

theorem regionOk_single (S : List Executable) (x : Executable)
    (hx1 : ∀ t, x ≠ Executable.LEnd t) (hx2 : ∀ t, x ≠ Executable.WLStart t)
    (hx3 : ∀ t, x ≠ Executable.WLEnd t) : RegionOk S.length (S ++ [x]) := by
  refine ⟨?_, ?_, ?_⟩ <;>
    (intro i t hi hv
     rw [getElem?_mid S x [] i, if_neg (by omega)] at hv
     by_cases hie : i = S.length
     · rw [if_pos hie] at hv
       first
         | exact absurd (Option.some.inj hv) (hx1 t)
         | exact absurd (Option.some.inj hv) (hx2 t)
         | exact absurd (Option.some.inj hv) (hx3 t)
     · rw [if_neg hie] at hv
       exact absurd hv (by simp))


theorem getElem?_patch_mid {α : Type} (S : List α) (a b : α) (D D' : List α)
    (hD : ∀ k, k < D.length → D'[k]? = D[k]?) (i : Nat)
    (hi1 : i ≠ S.length) (hi2 : i < S.length + 1 + D.length) :
    (S ++ b :: D')[i]? = (S ++ a :: D)[i]? := by
  rw [getElem?_mid, getElem?_mid]
  by_cases hlt : i < S.length
  · rw [if_pos hlt, if_pos hlt]
  · rw [if_neg hlt, if_neg hlt, if_neg hi1, if_neg hi1]
    exact hD (i - S.length - 1) (by omega)

theorem regionOk_patch (S : List Executable) (Db : List Executable) (e : Nat)
    (h : RegionOk (S.length + 1) (S ++ (Executable.LStart 0 :: Db))) :
    RegionOk S.length (S ++ (Executable.LStart e :: Db)) := by
  obtain ⟨h1, h2, h3⟩ := h
  have hpt : ∀ i, i ≠ S.length →
      (S ++ (Executable.LStart e :: Db))[i]? = (S ++ (Executable.LStart 0 :: Db))[i]? := by
    intro i hi
    rw [getElem?_mid, getElem?_mid]
    by_cases hlt : i < S.length
    · rw [if_pos hlt, if_pos hlt]
    · rw [if_neg hlt, if_neg hlt, if_neg hi, if_neg hi]
  have hbound : ∀ i (x : Executable), (S ++ (Executable.LStart 0 :: Db))[i]? = some x →
      i < S.length + 1 + Db.length := by
    intro i x hv
    by_contra hc
    rw [List.getElem?_eq_none (by simp; omega)] at hv
    cases hv
  refine ⟨?_, ?_, ?_⟩
  · intro i t hi hv
    by_cases hie : i = S.length
    · subst hie
      rw [getElem?_mid, if_neg (by omega), if_pos rfl] at hv
      cases hv
    · rw [hpt i hie] at hv
      obtain ⟨ht1, ht2, ht3⟩ := h1 i t (by omega) hv
      exact ⟨by omega, ht2, by rw [hpt t (by omega)]; exact ht3⟩
  · intro i t hi hv
    by_cases hie : i = S.length
    · subst hie
      rw [getElem?_mid, if_neg (by omega), if_pos rfl] at hv
      cases hv
    · rw [hpt i hie] at hv
      obtain ⟨ht1, ht2, ht3⟩ := h2 i t (by omega) hv
      refine ⟨ht1, by simp at ht2 ⊢; omega, by rw [hpt t (by omega)]; exact ht3⟩
  · intro i t hi hv
    by_cases hie : i = S.length
    · subst hie
      rw [getElem?_mid, if_neg (by omega), if_pos rfl] at hv
      cases hv
    · rw [hpt i hie] at hv
      obtain ⟨ht1, ht2, ht3⟩ := h3 i t (by omega) hv
      exact ⟨by omega, ht2, by rw [hpt t (by omega)]; exact ht3⟩

theorem regionOk_loop_close (S : List Executable) (Db : List Executable)
    (h : RegionOk (S.length + 1) (S ++ (Executable.LStart 0 :: Db))) :
    RegionOk S.length
      (S ++ (Executable.LStart (S.length + 1 + Db.length) ::
        (Db ++ [Executable.LEnd S.length]))) := by
  obtain ⟨h1, h2, h3⟩ := h
  have hS1len : (S ++ (Executable.LStart 0 :: Db)).length = S.length + 1 + Db.length := by
    simp
    omega
  have hpt : ∀ i, i ≠ S.length → i < S.length + 1 + Db.length →
      (S ++ (Executable.LStart (S.length + 1 + Db.length) ::
        (Db ++ [Executable.LEnd S.length])))[i]?
      = (S ++ (Executable.LStart 0 :: Db))[i]? := by
    intro i hi hilt
    exact getElem?_patch_mid S _ _ Db _
      (fun k hk => by rw [getElem?_snoc, if_pos hk]) i hi hilt
  have hlast : (S ++ (Executable.LStart (S.length + 1 + Db.length) ::
      (Db ++ [Executable.LEnd S.length])))[S.length + 1 + Db.length]?
      = some (Executable.LEnd S.length) := by
    rw [getElem?_mid, if_neg (by omega), if_neg (by omega), getElem?_snoc]
    rw [if_neg (by omega), if_pos (by omega)]
  have hhead : (S ++ (Executable.LStart (S.length + 1 + Db.length) ::
      (Db ++ [Executable.LEnd S.length])))[S.length]?
      = some (Executable.LStart (S.length + 1 + Db.length)) := by
    rw [getElem?_mid, if_neg (by omega), if_pos rfl]
  have hnone : ∀ i, S.length + 1 + Db.length < i →
      (S ++ (Executable.LStart (S.length + 1 + Db.length) ::
        (Db ++ [Executable.LEnd S.length])))[i]? = none := by
    intro i hgt
    rw [List.getElem?_eq_none]
    simp
    omega
  refine ⟨?_, ?_, ?_⟩
  · intro i t hi hv
    by_cases hie : i = S.length
    · subst hie
      rw [hhead] at hv
      cases hv
    · by_cases hiend : i = S.length + 1 + Db.length
      · subst hiend
        rw [hlast] at hv
        have ht : t = S.length := by
          have := Option.some.inj hv
          cases this
          rfl
        subst ht
        exact ⟨le_refl _, by omega, hhead⟩
      · by_cases hibig : S.length + 1 + Db.length < i
        · rw [hnone i hibig] at hv
          cases hv
        · rw [hpt i hie (by omega)] at hv
          obtain ⟨ht1, ht2, ht3⟩ := h1 i t (by omega) hv
          exact ⟨by omega, ht2, by rw [hpt t (by omega) (by omega)]; exact ht3⟩
  · intro i t hi hv
    by_cases hie : i = S.length
    · subst hie
      rw [hhead] at hv
      cases hv
    · by_cases hiend : i = S.length + 1 + Db.length
      · subst hiend
        rw [hlast] at hv
        cases hv
      · by_cases hibig : S.length + 1 + Db.length < i
        · rw [hnone i hibig] at hv
          cases hv
        · rw [hpt i hie (by omega)] at hv
          obtain ⟨ht1, ht2, ht3⟩ := h2 i t (by omega) hv
          rw [hS1len] at ht2
          refine ⟨ht1, by simp; omega, by rw [hpt t (by omega) (by omega)]; exact ht3⟩
  · intro i t hi hv
    by_cases hie : i = S.length
    · subst hie
      rw [hhead] at hv
      cases hv
    · by_cases hiend : i = S.length + 1 + Db.length
      · subst hiend
        rw [hlast] at hv
        cases hv
      · by_cases hibig : S.length + 1 + Db.length < i
        · rw [hnone i hibig] at hv
          cases hv
        · rw [hpt i hie (by omega)] at hv
          obtain ⟨ht1, ht2, ht3⟩ := h3 i t (by omega) hv
          exact ⟨by omega, ht2, by rw [hpt t (by omega) (by omega)]; exact ht3⟩


theorem regionOk_wloop_close (S : List Executable) (Db : List Executable)
    (h : RegionOk (S.length + 1) (S ++ (Executable.WLStart 0 :: Db))) :
    RegionOk S.length
      (S ++ (Executable.WLStart (S.length + 1 + Db.length) ::
        (Db ++ [Executable.WLEnd S.length]))) := by
  obtain ⟨h1, h2, h3⟩ := h
  have hS1len : (S ++ (Executable.WLStart 0 :: Db)).length = S.length + 1 + Db.length := by
    simp
    omega
  have hpt : ∀ i, i ≠ S.length → i < S.length + 1 + Db.length →
      (S ++ (Executable.WLStart (S.length + 1 + Db.length) ::
        (Db ++ [Executable.WLEnd S.length])))[i]?
      = (S ++ (Executable.WLStart 0 :: Db))[i]? := by
    intro i hi hilt
    exact getElem?_patch_mid S _ _ Db _
      (fun k hk => by rw [getElem?_snoc, if_pos hk]) i hi hilt
  have hlast : (S ++ (Executable.WLStart (S.length + 1 + Db.length) ::
      (Db ++ [Executable.WLEnd S.length])))[S.length + 1 + Db.length]?
      = some (Executable.WLEnd S.length) := by
    rw [getElem?_mid, if_neg (by omega), if_neg (by omega), getElem?_snoc]
    rw [if_neg (by omega), if_pos (by omega)]
  have hhead : (S ++ (Executable.WLStart (S.length + 1 + Db.length) ::
      (Db ++ [Executable.WLEnd S.length])))[S.length]?
      = some (Executable.WLStart (S.length + 1 + Db.length)) := by
    rw [getElem?_mid, if_neg (by omega), if_pos rfl]
  have hnone : ∀ i, S.length + 1 + Db.length < i →
      (S ++ (Executable.WLStart (S.length + 1 + Db.length) ::
        (Db ++ [Executable.WLEnd S.length])))[i]? = none := by
    intro i hgt
    rw [List.getElem?_eq_none]
    simp
    omega
  refine ⟨?_, ?_, ?_⟩
  · intro i t hi hv
    by_cases hie : i = S.length
    · subst hie
      rw [hhead] at hv
      cases hv
    · by_cases hiend : i = S.length + 1 + Db.length
      · subst hiend
        rw [hlast] at hv
        cases hv
      · by_cases hibig : S.length + 1 + Db.length < i
        · rw [hnone i hibig] at hv
          cases hv
        · rw [hpt i hie (by omega)] at hv
          obtain ⟨ht1, ht2, ht3⟩ := h1 i t (by omega) hv
          exact ⟨by omega, ht2, by rw [hpt t (by omega) (by omega)]; exact ht3⟩
  · intro i t hi hv
    by_cases hie : i = S.length
    · subst hie
      rw [hhead] at hv
      have ht : t = S.length + 1 + Db.length := by
        have := Option.some.inj hv
        cases this
        rfl
      subst ht
      refine ⟨by omega, by simp; omega, hlast⟩
    · by_cases hiend : i = S.length + 1 + Db.length
      · subst hiend
        rw [hlast] at hv
        cases hv
      · by_cases hibig : S.length + 1 + Db.length < i
        · rw [hnone i hibig] at hv
          cases hv
        · rw [hpt i hie (by omega)] at hv
          obtain ⟨ht1, ht2, ht3⟩ := h2 i t (by omega) hv
          rw [hS1len] at ht2
          refine ⟨ht1, by simp; omega, by rw [hpt t (by omega) (by omega)]; exact ht3⟩
  · intro i t hi hv
    by_cases hie : i = S.length
    · subst hie
      rw [hhead] at hv
      cases hv
    · by_cases hiend : i = S.length + 1 + Db.length
      · subst hiend
        rw [hlast] at hv
        have ht : t = S.length := by
          have := Option.some.inj hv
          cases this
          rfl
        subst ht
        exact ⟨le_refl _, by omega, hhead⟩
      · by_cases hibig : S.length + 1 + Db.length < i
        · rw [hnone i hibig] at hv
          cases hv
        · rw [hpt i hie (by omega)] at hv
          obtain ⟨ht1, ht2, ht3⟩ := h3 i t (by omega) hv
          exact ⟨by omega, ht2, by rw [hpt t (by omega) (by omega)]; exact ht3⟩


theorem regionOk_append (S D1 D2 : List Executable)
    (h1 : RegionOk S.length (S ++ D1))
    (h2 : RegionOk (S ++ D1).length ((S ++ D1) ++ D2)) :
    RegionOk S.length ((S ++ D1) ++ D2) := by
  obtain ⟨a1, a2, a3⟩ := h1
  obtain ⟨b1, b2, b3⟩ := h2
  have hlen : (S ++ D1).length = S.length + D1.length := by simp
  refine ⟨?_, ?_, ?_⟩
  · intro i t hi hv
    by_cases hlt : i < (S ++ D1).length
    · rw [List.getElem?_append_left hlt] at hv
      obtain ⟨ht1, ht2, ht3⟩ := a1 i t hi hv
      exact ⟨ht1, ht2, by rw [List.getElem?_append_left (by omega)]; exact ht3⟩
    · obtain ⟨ht1, ht2, ht3⟩ := b1 i t (by omega) hv
      exact ⟨by omega, ht2, ht3⟩
  · intro i t hi hv
    by_cases hlt : i < (S ++ D1).length
    · rw [List.getElem?_append_left hlt] at hv
      obtain ⟨ht1, ht2, ht3⟩ := a2 i t hi hv
      refine ⟨ht1, by simp at ht2 ⊢; omega, by rw [List.getElem?_append_left (by omega)]; exact ht3⟩
    · obtain ⟨ht1, ht2, ht3⟩ := b2 i t (by omega) hv
      exact ⟨ht1, ht2, ht3⟩
  · intro i t hi hv
    by_cases hlt : i < (S ++ D1).length
    · rw [List.getElem?_append_left hlt] at hv
      obtain ⟨ht1, ht2, ht3⟩ := a3 i t hi hv
      exact ⟨ht1, ht2, by rw [List.getElem?_append_left (by omega)]; exact ht3⟩
    · obtain ⟨ht1, ht2, ht3⟩ := b3 i t (by omega) hv
      exact ⟨by omega, ht2, ht3⟩

mutual

theorem synthNode_ext (t : ITree) :
    ∀ (S : List Executable) (c : MultiplyCache),
    ∃ D c2, synthNode t (S, c) = (S ++ D, c2) ∧ RegionOk S.length (S ++ D) := by
  cases t with
  | Zero =>
    intro S c
    exact ⟨[Executable.Zero], c, rfl,
      regionOk_single S _ (by intro t hc; cases hc) (by intro t hc; cases hc)
        (by intro t hc; cases hc)⟩
  | Mul lo hi args =>
    intro S c
    exact ⟨[Executable.Multiply (c.insert ⟨lo, hi, args⟩).1], (c.insert ⟨lo, hi, args⟩).2, rfl,
      regionOk_single S _ (by intro t hc; cases hc) (by intro t hc; cases hc)
        (by intro t hc; cases hc)⟩
  | Inc n =>
    intro S c
    exact ⟨[Executable.Inc n], c, rfl,
      regionOk_single S _ (by intro t hc; cases hc) (by intro t hc; cases hc)
        (by intro t hc; cases hc)⟩
  | Dec n =>
    intro S c
    exact ⟨[Executable.Dec n], c, rfl,
      regionOk_single S _ (by intro t hc; cases hc) (by intro t hc; cases hc)
        (by intro t hc; cases hc)⟩
  | IncPtr n =>
    intro S c
    exact ⟨[Executable.IncPtr (n % U32)], c, rfl,
      regionOk_single S _ (by intro t hc; cases hc) (by intro t hc; cases hc)
        (by intro t hc; cases hc)⟩
  | DecPtr n =>
    intro S c
    exact ⟨[Executable.DecPtr (n % U32)], c, rfl,
      regionOk_single S _ (by intro t hc; cases hc) (by intro t hc; cases hc)
        (by intro t hc; cases hc)⟩
  | Read =>
    intro S c
    exact ⟨[Executable.Read], c, rfl,
      regionOk_single S _ (by intro t hc; cases hc) (by intro t hc; cases hc)
        (by intro t hc; cases hc)⟩
  | Write =>
    intro S c
    exact ⟨[Executable.Write], c, rfl,
      regionOk_single S _ (by intro t hc; cases hc) (by intro t hc; cases hc)
        (by intro t hc; cases hc)⟩
  | Loop ts =>
    intro S c
    obtain ⟨Db, c1, hr, hreg⟩ := synthInner_ext ts (S ++ [Executable.LStart 0]) c
    have hcons : (S ++ [Executable.LStart 0]) ++ Db = S ++ (Executable.LStart 0 :: Db) := by
      rw [List.append_assoc]
      rfl
    rw [hcons] at hr hreg
    have hlen1 : (S ++ [Executable.LStart 0]).length = S.length + 1 := by simp
    rw [hlen1] at hreg
    have hL : (S ++ (Executable.LStart 0 :: Db)).length = S.length + 1 + Db.length := by
      simp
      omega
    simp only [synthNode, hr]
    rcases hlast : (S ++ (Executable.LStart 0 :: Db)).getLast? with _ | x
    · refine ⟨Executable.LStart (S.length + 1 + Db.length) :: (Db ++ [Executable.LEnd S.length]),
        c1, ?_, regionOk_loop_close S Db hreg⟩
      have hset : ((S ++ (Executable.LStart 0 :: Db)) ++ [Executable.LEnd S.length]).set S.length
          (Executable.LStart (S ++ (Executable.LStart 0 :: Db)).length)
          = S ++ (Executable.LStart (S.length + 1 + Db.length) ::
              (Db ++ [Executable.LEnd S.length])) := by
        rw [hL, List.append_assoc, List.cons_append, set_append_cons]
      simp only [hset]
    · rcases x with _ | n | n | n | n | e | e | e | e | _ | _ | m
      case LEnd =>
        refine ⟨Executable.LStart (S.length + Db.length) :: Db, c1, ?_,
          regionOk_patch S Db _ hreg⟩
        have hset : (S ++ (Executable.LStart 0 :: Db)).set S.length
            (Executable.LStart ((S ++ (Executable.LStart 0 :: Db)).length - 1))
            = S ++ (Executable.LStart (S.length + Db.length) :: Db) := by
          rw [set_append_cons]
          congr 2
          simp
        simp only [hset]
      all_goals
        (refine ⟨Executable.LStart (S.length + 1 + Db.length) ::
            (Db ++ [Executable.LEnd S.length]), c1, ?_, regionOk_loop_close S Db hreg⟩
         have hset : ((S ++ (Executable.LStart 0 :: Db)) ++ [Executable.LEnd S.length]).set S.length
             (Executable.LStart (S ++ (Executable.LStart 0 :: Db)).length)
             = S ++ (Executable.LStart (S.length + 1 + Db.length) ::
                 (Db ++ [Executable.LEnd S.length])) := by
           rw [hL, List.append_assoc, List.cons_append, set_append_cons]
         simp only [hset])
  | WriteLoop ts =>
    intro S c
    obtain ⟨Db, c1, hr, hreg⟩ := synthInner_ext ts (S ++ [Executable.WLStart 0]) c
    have hcons : (S ++ [Executable.WLStart 0]) ++ Db = S ++ (Executable.WLStart 0 :: Db) := by
      rw [List.append_assoc]
      rfl
    rw [hcons] at hr hreg
    have hlen1 : (S ++ [Executable.WLStart 0]).length = S.length + 1 := by simp
    rw [hlen1] at hreg
    have hL : (S ++ (Executable.WLStart 0 :: Db)).length = S.length + 1 + Db.length := by
      simp
      omega
    simp only [synthNode, hr]
    refine ⟨Executable.WLStart (S.length + 1 + Db.length) ::
        (Db ++ [Executable.WLEnd S.length]), c1, ?_, regionOk_wloop_close S Db hreg⟩
    have hset : ((S ++ (Executable.WLStart 0 :: Db)) ++ [Executable.WLEnd S.length]).set S.length
        (Executable.WLStart (S ++ (Executable.WLStart 0 :: Db)).length)
        = S ++ (Executable.WLStart (S.length + 1 + Db.length) ::
            (Db ++ [Executable.WLEnd S.length])) := by
      rw [hL, List.append_assoc, List.cons_append, set_append_cons]
    simp only [hset]
  | If ts =>
    intro S c
    obtain ⟨Db, c1, hr, hreg⟩ := synthInner_ext ts (S ++ [Executable.LStart 0]) c
    have hcons : (S ++ [Executable.LStart 0]) ++ Db = S ++ (Executable.LStart 0 :: Db) := by
      rw [List.append_assoc]
      rfl
    rw [hcons] at hr hreg
    have hlen1 : (S ++ [Executable.LStart 0]).length = S.length + 1 := by simp
    rw [hlen1] at hreg
    have hL : (S ++ (Executable.LStart 0 :: Db)).length = S.length + 1 + Db.length := by
      simp
      omega
    simp only [synthNode, hr]
    by_cases hemp : (S ++ (Executable.LStart 0 :: Db)).length - 1 = S.length
    · rw [if_pos hemp]
      have hDb : Db = [] := by
        rw [hL] at hemp
        exact List.length_eq_zero.mp (by omega)
      subst hDb
      refine ⟨[], c1, ?_, by simpa using regionOk_refl S⟩
      have : (S ++ (Executable.LStart 0 :: ([] : List Executable))).dropLast = S := by
        have : S ++ (Executable.LStart 0 :: ([] : List Executable)) = S ++ [Executable.LStart 0] :=
          rfl
        rw [this, List.dropLast_concat]
      rw [this, List.append_nil]
    · rw [if_neg hemp]
      refine ⟨Executable.LStart ((S ++ (Executable.LStart 0 :: Db)).length - 1) :: Db, c1, ?_,
        regionOk_patch S Db _ hreg⟩
      rw [set_append_cons]

theorem synthInner_ext (ts : List ITree) :
    ∀ (S : List Executable) (c : MultiplyCache),
    ∃ D c2, synthInner ts (S, c) = (S ++ D, c2) ∧ RegionOk S.length (S ++ D) := by
  cases ts with
  | nil =>
    intro S c
    exact ⟨[], c, by simp [synthInner], by simpa using regionOk_refl S⟩
  | cons t rest =>
    intro S c
    obtain ⟨D1, c1, h1, hm1⟩ := synthNode_ext t S c
    obtain ⟨D2, c2, h2, hm2⟩ := synthInner_ext rest (S ++ D1) c1
    refine ⟨D1 ++ D2, c2, ?_, ?_⟩
    · show synthInner rest (synthNode t (S, c)) = (S ++ (D1 ++ D2), c2)
      rw [h1, h2, List.append_assoc]
    · rw [← List.append_assoc]
      exact regionOk_append S D1 D2 hm1 hm2

end


theorem insertGo_matched :
    ∀ (s : List (BfInstruc Nat)) (idx : Nat) (stack : List Nat),
    stack.Pairwise (fun a b => a > b) →
    (∀ v ∈ stack, v < idx) →
    (∀ i, i < idx → i ∉ stack →
      (∀ e, s[i]? = some (BfInstruc.LStart e) →
        e < idx ∧ e ∉ stack ∧ s[e]? = some (BfInstruc.LEnd i)) ∧
      (∀ t, s[i]? = some (BfInstruc.LEnd t) →
        t < idx ∧ t ∉ stack ∧ s[t]? = some (BfInstruc.LStart i))) →
    ∀ s2, insertGo s idx stack = .ok s2 → MutualJumpsFlat s2 := by
  intro s idx stack
  induction s, idx, stack using insertGo.induct with
  | case1 s idx stack h a hx ih =>
    intro hpw hst hmat s2 hok
    have hgo : insertGo s idx stack = insertGo s (idx + 1) (idx :: stack) := by
      rw [insertGo.eq_def]
      simp only [dif_pos h, hx]
    rw [hgo] at hok
    refine ih ?_ ?_ ?_ s2 hok
    · exact List.pairwise_cons.mpr ⟨fun v hv => hst v hv, hpw⟩
    · intro v hv
      rcases List.mem_cons.mp hv with hv1 | hv2
      · omega
      · exact Nat.lt_succ_of_lt (hst v hv2)
    · intro i hi hni
      have hne : i ≠ idx := fun hc => hni (hc ▸ List.mem_cons_self i stack)
      have hni2 : i ∉ stack := fun hc => hni (List.mem_cons_of_mem idx hc)
      obtain ⟨hm1, hm2⟩ := hmat i (by omega) hni2
      constructor
      · intro e hv
        obtain ⟨he1, he2, he3⟩ := hm1 e hv
        exact ⟨by omega, by
          intro hc
          rcases List.mem_cons.mp hc with hc1 | hc2
          · omega
          · exact he2 hc2, he3⟩
      · intro e hv
        obtain ⟨he1, he2, he3⟩ := hm2 e hv
        exact ⟨by omega, by
          intro hc
          rcases List.mem_cons.mp hc with hc1 | hc2
          · omega
          · exact he2 hc2, he3⟩
  | case2 s idx h a hx =>
    intro _ _ _ s2 hok
    have hgo : insertGo s idx [] = .error .LoopEndBeforeLoopStart := by
      rw [insertGo.eq_def]
      simp only [dif_pos h, hx]
    rw [hgo] at hok
    cases hok
  | case3 s idx h a hx b rest ih =>
    intro hpw hst hmat s2 hok
    have hb : b < idx := hst b (List.mem_cons_self b rest)
    have hbrest : ∀ v ∈ rest, b > v := (List.pairwise_cons.mp hpw).1
    have hgo : insertGo s idx (b :: rest) =
        insertGo ((s.set b (BfInstruc.LStart idx)).set idx (BfInstruc.LEnd b)) (idx + 1) rest := by
      rw [insertGo.eq_def]
      simp only [dif_pos h, hx]
    rw [hgo] at hok
    have hlen2 : ((s.set b (BfInstruc.LStart idx)).set idx (BfInstruc.LEnd b)).length
        = s.length := by
      simp
    have hsb : ((s.set b (BfInstruc.LStart idx)).set idx (BfInstruc.LEnd b))[b]?
        = some (BfInstruc.LStart idx) := by
      rw [List.getElem?_set_ne (by omega), List.getElem?_set_self (by omega)]
    have hsidx : ((s.set b (BfInstruc.LStart idx)).set idx (BfInstruc.LEnd b))[idx]?
        = some (BfInstruc.LEnd b) := by
      rw [List.getElem?_set_self (by simp only [List.length_set]; omega)]
    have hsother : ∀ j, j ≠ b → j ≠ idx →
        ((s.set b (BfInstruc.LStart idx)).set idx (BfInstruc.LEnd b))[j]? = s[j]? := by
      intro j hj1 hj2
      rw [List.getElem?_set_ne (by omega), List.getElem?_set_ne (by omega)]
    refine ih (List.Pairwise.sublist (List.sublist_cons_self b rest) hpw) ?_ ?_ s2 hok
    · intro v hv
      exact Nat.lt_succ_of_lt (hst v (List.mem_cons_of_mem b hv))
    · intro i hi hni
      by_cases hib : i = b
      · subst hib
        constructor
        · intro e hv
          rw [hsb] at hv
          have he : e = idx := by
            have := Option.some.inj hv
            cases this
            rfl
          subst he
          refine ⟨by omega, fun hc => by have := hbrest e hc; omega, hsidx⟩
        · intro e hv
          rw [hsb] at hv
          cases hv
      · by_cases hii : i = idx
        · subst hii
          constructor
          · intro e hv
            rw [hsidx] at hv
            cases hv
          · intro e hv
            rw [hsidx] at hv
            have he : e = b := by
              have := Option.some.inj hv
              cases this
              rfl
            subst he
            refine ⟨by omega, fun hc => by have := hbrest e hc; omega, hsb⟩
        · have hnib : i ∉ b :: rest := by
            intro hc
            rcases List.mem_cons.mp hc with hc1 | hc2
            · exact hib hc1
            · exact hni hc2
          obtain ⟨hm1, hm2⟩ := hmat i (by omega) hnib
          constructor
          · intro e hv
            rw [hsother i hib hii] at hv
            obtain ⟨he1, he2, he3⟩ := hm1 e hv
            have heb : e ≠ b := fun hc => he2 (hc ▸ List.mem_cons_self b rest)
            have herest : e ∉ rest := fun hc => he2 (List.mem_cons_of_mem b hc)
            exact ⟨by omega, herest, by rw [hsother e heb (by omega)]; exact he3⟩
          · intro e hv
            rw [hsother i hib hii] at hv
            obtain ⟨he1, he2, he3⟩ := hm2 e hv
            have heb : e ≠ b := fun hc => he2 (hc ▸ List.mem_cons_self b rest)
            have herest : e ∉ rest := fun hc => he2 (List.mem_cons_of_mem b hc)
            exact ⟨by omega, herest, by rw [hsother e heb (by omega)]; exact he3⟩
  | case4 s idx stack h hnS hnE ih =>
    intro hpw hst hmat s2 hok
    have hgo : insertGo s idx stack = insertGo s (idx + 1) stack := by
      rw [insertGo.eq_def]
      rcases hval : s[idx] with _ | _ | _ | _ | _ | _ | _ | a | a | c | c | n | n
      all_goals first
        | exact (hnS _ hval).elim
        | exact (hnE _ hval).elim
        | simp only [dif_pos h, hval]
    rw [hgo] at hok
    refine ih hpw (fun v hv => Nat.lt_succ_of_lt (hst v hv)) ?_ s2 hok
    intro i hi hni
    by_cases hii : i = idx
    · subst hii
      have hvsome : s[i]? = some s[i] := List.getElem?_eq_getElem h
      constructor
      · intro e hv
        rw [hvsome] at hv
        exact (hnS e (Option.some.inj hv)).elim
      · intro e hv
        rw [hvsome] at hv
        exact (hnE e (Option.some.inj hv)).elim
    · obtain ⟨hm1, hm2⟩ := hmat i (by omega) hni
      constructor
      · intro e hv
        obtain ⟨he1, he2, he3⟩ := hm1 e hv
        exact ⟨by omega, he2, he3⟩
      · intro e hv
        obtain ⟨he1, he2, he3⟩ := hm2 e hv
        exact ⟨by omega, he2, he3⟩
  | case5 s idx stack h hem =>
    intro hpw hst hmat s2 hok
    have hsl : stack = [] := List.isEmpty_iff.mp hem
    subst hsl
    have hgo : insertGo s idx [] = .ok s := by
      rw [insertGo.eq_def]
      simp [dif_neg h]
    rw [hgo] at hok
    have hs2 : s2 = s := (Except.ok.inj hok).symm
    rw [hs2]
    constructor
    · intro i e hv
      have hilt : i < s.length := by
        by_contra hc
        have hnone : s[i]? = none := List.getElem?_eq_none (by omega)
        rw [hnone] at hv
        cases hv
      exact ((hmat i (by omega) (by simp)).1 e hv).2.2
    · intro i e hv
      have hilt : i < s.length := by
        by_contra hc
        have hnone : s[i]? = none := List.getElem?_eq_none (by omega)
        rw [hnone] at hv
        cases hv
      exact ((hmat i (by omega) (by simp)).2 e hv).2.2
  | case6 s idx stack h hem =>
    intro _ _ _ s2 hok
    have hgo : insertGo s idx stack = .error .LoopCountMismatch := by
      rw [insertGo.eq_def]
      simp only [dif_neg h, if_neg hem]
    rw [hgo] at hok
    cases hok


set_option maxRecDepth 4000 in
/-- Counterexample for claim C4: lowering the well-formed source "[[>]]"
through the tree pipeline yields a stream whose outer LStart carries the
index of the inner loop's LEnd (the outer loop has no LEnd of its own), so
not every LStart operand is the index of a matching LEnd. -/
theorem claim_C4_counterexample :
    treePipeline [91, 91, 62, 93, 93]
        = .ok ([Executable.LStart 3, Executable.LStart 3, Executable.IncPtr 1,
                Executable.LEnd 1], ⟨[], []⟩) ∧
      ¬ MutualJumps [Executable.LStart 3, Executable.LStart 3, Executable.IncPtr 1,
          Executable.LEnd 1] := by
  constructor
  · simp [treePipeline, Token.parse, parseGo, Token.toTree, toTreeGo, rewriteAll,
      rewriteZero, rewriteMultiply, findIfConditions, rewriteWriteLoops,
      ITree.asMultiply, asMultiplyGo, isWriteloop, zeroInLoop, terminatingNestedLen,
      ITree.synthesize, synthInner, synthNode, MultiplyCache.insert, isProgByte,
      Except.map, U32, U64]
  · intro hm
    have h0 := hm.1 0 3 rfl
    exact absurd h0 (by decide)

/-- Claim C4 as amended: in streams produced by insert_bf_jump_points every
LStart and LEnd operand is the index of its matching partner and points
back; in streams produced by ITree::synthesize this holds of every
WLStart/WLEnd pair and of every LEnd (whose LStart points back at it), but
an LStart emitted for a Loop whose body ends with a nested loop carries the
index of that nested loop's trailing LEnd instead of an own LEnd, and an
LStart emitted for an If carries the index of the last instruction of its
body, with no LEnd at all. -/
theorem claim_C4_amended :
    (∀ (s s2 : List (BfInstruc Nat)), insertBfJumpPoints s = .ok s2 → MutualJumpsFlat s2) ∧
    (∀ ts : List ITree,
      (∀ i t, (ITree.synthesize ts).1[i]? = some (Executable.LEnd t) →
        t < i ∧ (ITree.synthesize ts).1[t]? = some (Executable.LStart i)) ∧
      (∀ i e, (ITree.synthesize ts).1[i]? = some (Executable.WLStart e) →
        i < e ∧ (ITree.synthesize ts).1[e]? = some (Executable.WLEnd i)) ∧
      (∀ i t, (ITree.synthesize ts).1[i]? = some (Executable.WLEnd t) →
        t < i ∧ (ITree.synthesize ts).1[t]? = some (Executable.WLStart i))) := by
  constructor
  · intro s s2 hok
    exact insertGo_matched s 0 [] (by simp) (by simp)
      (fun i hi _ => absurd hi (Nat.not_lt_zero i)) s2 hok
  · intro ts
    obtain ⟨D, c2, hr, hreg⟩ := synthInner_ext ts [] ⟨[], []⟩
    have hs : ITree.synthesize ts = ([] ++ D, c2) := hr
    obtain ⟨r1, r2, r3⟩ := hreg
    rw [hs]
    refine ⟨?_, ?_, ?_⟩
    · intro i t hv
      obtain ⟨h1, h2, h3⟩ := r1 i t (Nat.zero_le i) hv
      exact ⟨h2, h3⟩
    · intro i e hv
      obtain ⟨h1, h2, h3⟩ := r2 i e (Nat.zero_le i) hv
      exact ⟨h1, h3⟩
    · intro i t hv
      obtain ⟨h1, h2, h3⟩ := r3 i t (Nat.zero_le i) hv
      exact ⟨h2, h3⟩

set_option maxRecDepth 4000 in
/-- Witness for the amended claim C4 at concrete inputs: the flat pipeline
on a single bracket pair, and the tree pipeline stream of "[[>]]". -/
theorem claim_C4_witness :
    (insertBfJumpPoints [BfInstruc.LStart 0, BfInstruc.LEnd 0]
        = .ok [BfInstruc.LStart 1, BfInstruc.LEnd 0] ∧
      MutualJumpsFlat [BfInstruc.LStart 1, BfInstruc.LEnd 0]) ∧
    (ITree.synthesize [ITree.Loop [ITree.Loop [ITree.IncPtr 1]]]).1[3]?
        = some (Executable.LEnd 1) ∧
    (ITree.synthesize [ITree.Loop [ITree.Loop [ITree.IncPtr 1]]]).1[1]?
        = some (Executable.LStart 3) :=
  ⟨⟨by simp [insertBfJumpPoints, insertGo],
      claim_C4_amended.1 [BfInstruc.LStart 0, BfInstruc.LEnd 0]
        [BfInstruc.LStart 1, BfInstruc.LEnd 0] (by simp [insertBfJumpPoints, insertGo])⟩, by rfl,
    ((claim_C4_amended.2 [ITree.Loop [ITree.Loop [ITree.IncPtr 1]]]).1 3 1 (by rfl)).2⟩


theorem multiply_lookup_set (L : List Executable) (k i e : Nat) (x : Executable)
    (hx : ∀ m, x ≠ Executable.Multiply m)
    (hv : (L.set k x)[i]? = some (Executable.Multiply e)) :
    L[i]? = some (Executable.Multiply e) := by
  rw [List.getElem?_set] at hv
  by_cases hk : k = i
  · rw [if_pos hk] at hv
    by_cases h2 : k < L.length
    · rw [if_pos h2] at hv
      exact (hx e (Option.some.inj hv)).elim
    · rw [if_neg h2] at hv
      cases hv
  · rw [if_neg hk] at hv
    exact hv

theorem multiply_lookup_snoc (L : List Executable) (x : Executable) (i e : Nat)
    (hx : ∀ m, x ≠ Executable.Multiply m)
    (hv : (L ++ [x])[i]? = some (Executable.Multiply e)) :
    L[i]? = some (Executable.Multiply e) := by
  rw [getElem?_snoc] at hv
  by_cases h1 : i < L.length
  · rw [if_pos h1] at hv
    exact hv
  · rw [if_neg h1] at hv
    by_cases h2 : i = L.length
    · rw [if_pos h2] at hv
      exact (hx e (Option.some.inj hv)).elim
    · rw [if_neg h2] at hv
      cases hv

theorem multiply_lookup_dropLast (L : List Executable) (i e : Nat)
    (hv : L.dropLast[i]? = some (Executable.Multiply e)) :
    L[i]? = some (Executable.Multiply e) := by
  rw [List.dropLast_eq_take, List.getElem?_take] at hv
  by_cases h1 : i < L.length - 1
  · rw [if_pos h1] at hv
    exact hv
  · rw [if_neg h1] at hv
    cases hv



theorem assocFind_mem (dm : DistinctMultiply) (l : List (DistinctMultiply × Nat)) (v : Nat)
    (h : assocFind dm l = some v) : (dm, v) ∈ l := by
  induction l with
  | nil => cases h
  | cons p rest ih =>
    rcases p with ⟨k, w⟩
    rw [assocFind] at h
    by_cases hk : k = dm
    · rw [if_pos hk] at h
      have hw : w = v := Option.some.inj h
      subst hk hw
      exact List.mem_cons_self _ _
    · rw [if_neg hk] at h
      exact List.mem_cons_of_mem _ (ih h)


mutual

theorem synthNode_mulBound (t : ITree) :
    ∀ (S : List Executable) (c : MultiplyCache),
    (∀ p ∈ c.index, p.2 < c.table.length) →
    (∀ (i e : Nat), S[i]? = some (Executable.Multiply e) → e < c.table.length) →
    (∀ p ∈ (synthNode t (S, c)).2.index, p.2 < (synthNode t (S, c)).2.table.length) ∧
    c.table.length ≤ (synthNode t (S, c)).2.table.length ∧
    (∀ (i e : Nat), (synthNode t (S, c)).1[i]? = some (Executable.Multiply e) →
      e < (synthNode t (S, c)).2.table.length) := by
  cases t with
  | Zero =>
    intro S c hwf hS
    simp only [synthNode]
    exact ⟨hwf, le_refl _, fun i e hv =>
      hS i e (multiply_lookup_snoc S _ i e (fun m hc => by cases hc) hv)⟩
  | Inc n =>
    intro S c hwf hS
    simp only [synthNode]
    exact ⟨hwf, le_refl _, fun i e hv =>
      hS i e (multiply_lookup_snoc S _ i e (fun m hc => by cases hc) hv)⟩
  | Dec n =>
    intro S c hwf hS
    simp only [synthNode]
    exact ⟨hwf, le_refl _, fun i e hv =>
      hS i e (multiply_lookup_snoc S _ i e (fun m hc => by cases hc) hv)⟩
  | IncPtr n =>
    intro S c hwf hS
    simp only [synthNode]
    exact ⟨hwf, le_refl _, fun i e hv =>
      hS i e (multiply_lookup_snoc S _ i e (fun m hc => by cases hc) hv)⟩
  | DecPtr n =>
    intro S c hwf hS
    simp only [synthNode]
    exact ⟨hwf, le_refl _, fun i e hv =>
      hS i e (multiply_lookup_snoc S _ i e (fun m hc => by cases hc) hv)⟩
  | Read =>
    intro S c hwf hS
    simp only [synthNode]
    exact ⟨hwf, le_refl _, fun i e hv =>
      hS i e (multiply_lookup_snoc S _ i e (fun m hc => by cases hc) hv)⟩
  | Write =>
    intro S c hwf hS
    simp only [synthNode]
    exact ⟨hwf, le_refl _, fun i e hv =>
      hS i e (multiply_lookup_snoc S _ i e (fun m hc => by cases hc) hv)⟩
  | Mul lo hi args =>
    intro S c hwf hS
    simp only [synthNode, MultiplyCache.insert]
    rcases hlook : assocFind ⟨lo, hi, args⟩ c.index with _ | v
    · dsimp only
      refine ⟨?_, by simp, ?_⟩
      · intro p hp
        simp only [List.length_append, List.length_cons, List.length_nil]
        rcases List.mem_append.mp hp with hp1 | hp2
        · have := hwf p hp1
          omega
        · rw [List.mem_singleton] at hp2
          rw [hp2]
          simp
      · intro i e hv
        simp only [List.length_append, List.length_cons, List.length_nil]
        rw [getElem?_snoc] at hv
        by_cases h1 : i < S.length
        · rw [if_pos h1] at hv
          have := hS i e hv
          omega
        · rw [if_neg h1] at hv
          by_cases h2 : i = S.length
          · rw [if_pos h2] at hv
            have he : e = c.table.length := by
              have := Option.some.inj hv
              cases this
              rfl
            omega
          · rw [if_neg h2] at hv
            cases hv
    · dsimp only
      refine ⟨hwf, le_refl _, ?_⟩
      intro i e hv
      rw [getElem?_snoc] at hv
      by_cases h1 : i < S.length
      · rw [if_pos h1] at hv
        exact hS i e hv
      · rw [if_neg h1] at hv
        by_cases h2 : i = S.length
        · rw [if_pos h2] at hv
          have he : e = v := by
            have := Option.some.inj hv
            cases this
            rfl
          subst he
          exact hwf (⟨lo, hi, args⟩, e) (assocFind_mem _ _ _ hlook)
        · rw [if_neg h2] at hv
          cases hv
  | Loop ts =>
    intro S c hwf hS
    have hS2 : ∀ i e, (S ++ [Executable.LStart 0])[i]? = some (Executable.Multiply e) →
        e < c.table.length :=
      fun i e hv => hS i e (multiply_lookup_snoc S _ i e (fun m hc => by cases hc) hv)
    obtain ⟨r1, r2, r3⟩ := synthInner_mulBound ts (S ++ [Executable.LStart 0]) c hwf hS2
    simp only [synthNode]
    rcases hlast : (synthInner ts (S ++ [Executable.LStart 0], c)).1.getLast? with _ | x
    · simp only []
      exact ⟨r1, r2, fun i e hv => r3 i e
        (multiply_lookup_snoc _ _ i e (fun m hc => by cases hc)
          (multiply_lookup_set _ _ i e _ (fun m hc => by cases hc) hv))⟩
    · rcases x with _ | n | n | n | n | a | a | a | a | _ | _ | m
      case LEnd =>
        simp only []
        exact ⟨r1, r2, fun i e hv => r3 i e
          (multiply_lookup_set _ _ i e _ (fun m hc => by cases hc) hv)⟩
      all_goals
        (simp only []
         exact ⟨r1, r2, fun i e hv => r3 i e
           (multiply_lookup_snoc _ _ i e (fun m hc => by cases hc)
             (multiply_lookup_set _ _ i e _ (fun m hc => by cases hc) hv))⟩)
  | WriteLoop ts =>
    intro S c hwf hS
    have hS2 : ∀ i e, (S ++ [Executable.WLStart 0])[i]? = some (Executable.Multiply e) →
        e < c.table.length :=
      fun i e hv => hS i e (multiply_lookup_snoc S _ i e (fun m hc => by cases hc) hv)
    obtain ⟨r1, r2, r3⟩ := synthInner_mulBound ts (S ++ [Executable.WLStart 0]) c hwf hS2
    simp only [synthNode]
    exact ⟨r1, r2, fun i e hv => r3 i e
      (multiply_lookup_snoc _ _ i e (fun m hc => by cases hc)
        (multiply_lookup_set _ _ i e _ (fun m hc => by cases hc) hv))⟩
  | If ts =>
    intro S c hwf hS
    have hS2 : ∀ i e, (S ++ [Executable.LStart 0])[i]? = some (Executable.Multiply e) →
        e < c.table.length :=
      fun i e hv => hS i e (multiply_lookup_snoc S _ i e (fun m hc => by cases hc) hv)
    obtain ⟨r1, r2, r3⟩ := synthInner_mulBound ts (S ++ [Executable.LStart 0]) c hwf hS2
    simp only [synthNode]
    by_cases hemp : (synthInner ts (S ++ [Executable.LStart 0], c)).1.length - 1 = S.length
    · rw [if_pos hemp]
      exact ⟨r1, r2, fun i e hv => r3 i e (multiply_lookup_dropLast _ i e hv)⟩
    · rw [if_neg hemp]
      exact ⟨r1, r2, fun i e hv => r3 i e
        (multiply_lookup_set _ _ i e _ (fun m hc => by cases hc) hv)⟩

theorem synthInner_mulBound (ts : List ITree) :
    ∀ (S : List Executable) (c : MultiplyCache),
    (∀ p ∈ c.index, p.2 < c.table.length) →
    (∀ (i e : Nat), S[i]? = some (Executable.Multiply e) → e < c.table.length) →
    (∀ p ∈ (synthInner ts (S, c)).2.index, p.2 < (synthInner ts (S, c)).2.table.length) ∧
    c.table.length ≤ (synthInner ts (S, c)).2.table.length ∧
    (∀ (i e : Nat), (synthInner ts (S, c)).1[i]? = some (Executable.Multiply e) →
      e < (synthInner ts (S, c)).2.table.length) := by
  cases ts with
  | nil =>
    intro S c hwf hS
    exact ⟨hwf, le_refl _, hS⟩
  | cons t rest =>
    intro S c hwf hS
    obtain ⟨w1, w2, w3⟩ := synthNode_mulBound t S c hwf hS
    have hrec := synthInner_mulBound rest (synthNode t (S, c)).1 (synthNode t (S, c)).2 w1 w3
    simp only [synthInner]
    exact ⟨hrec.1, le_trans w2 hrec.2.1, hrec.2.2⟩

end

/-- Claim C10: in every stream produced by ITree::synthesize, each Multiply
operand indexes inside the accompanying multiply side table, so the
interpreter's unchecked table lookup stays in bounds. -/
theorem claim_C10 (ts : List ITree) (i e : Nat)
    (hv : (ITree.synthesize ts).1[i]? = some (Executable.Multiply e)) :
    e < (ITree.synthesize ts).2.table.length := by
  have h := synthInner_mulBound ts [] ⟨[], []⟩ (by intro p hp; cases hp)
    (by intro i e hv; rw [List.getElem?_eq_none (by simp)] at hv; cases hv)
  exact h.2.2 i e hv

/-- Witness for claim C10 at a concrete tree holding one multiply node. -/
theorem claim_C10_witness :
    (ITree.synthesize [ITree.Mul 0 1 [⟨1, 2⟩]]).1[0]? = some (Executable.Multiply 0) ∧
      0 < (ITree.synthesize [ITree.Mul 0 1 [⟨1, 2⟩]]).2.table.length :=
  ⟨by rfl, claim_C10 [ITree.Mul 0 1 [⟨1, 2⟩]] 0 0 (by rfl)⟩


theorem mulFold_preserves (w : Nat) (v : Int) (args : List MulArg) :
    ∀ st : BfState,
    (args.foldl (mulStep w v) st).ptr = st.ptr ∧
    (args.foldl (mulStep w v) st).cells.length = st.cells.length ∧
    (args.foldl (mulStep w v) st).input = st.input ∧
    (args.foldl (mulStep w v) st).output = st.output := by
  induction args with
  | nil => intro st; exact ⟨rfl, rfl, rfl, rfl⟩
  | cons a rest ih =>
    intro st
    have h := ih (mulStep w v st a)
    simp only [List.foldl_cons] at *
    refine ⟨h.1.trans ?_, h.2.1.trans ?_, h.2.2.1.trans ?_, h.2.2.2.trans ?_⟩ <;>
      simp [mulStep]

/-- Claim C3: with the pointer in bounds (and within the machine limits the
Rust allocator and the call sites guarantee), inc_ptr and dec_ptr of the
tape state, inc_ptr_by and dec_ptr_by of the executor, and the fused
multiply succeed exactly when the moved pointer and the recipe range stay
inside the tape, the failing cases report Overflow past the end and
Underflow below zero as unmodified-state errors, and every success keeps
the pointer inside the tape. -/
theorem claim_C3 (w : Nat) (s : BfState) (e : ExecSt) (k : Nat) (lo hi : Int)
    (args : List MulArg)
    (hp : s.ptr < s.cells.length) (hN : s.cells.length ≤ 2 ^ 63)
    (he : e.ptr < e.data.length) (heN : e.data.length ≤ 2 ^ 63) (hk : k ≤ 2 ^ 63)
    (hlo : lo ≤ 0) (hhi : 0 ≤ hi) (hhi2 : hi < 2 ^ 63) :
    (s.ptr + k < s.cells.length → s.incPtr k = .ok { s with ptr := s.ptr + k }) ∧
    (¬ s.ptr + k < s.cells.length → s.incPtr k = .error .Overflow) ∧
    (k ≤ s.ptr → s.decPtr k = .ok { s with ptr := s.ptr - k }) ∧
    (¬ k ≤ s.ptr → s.decPtr k = .error .Underflow) ∧
    (e.ptr + k < e.data.length → incPtrBy e k = .ok { e with ptr := e.ptr + k }) ∧
    (¬ e.ptr + k < e.data.length → incPtrBy e k = .error .Overflow) ∧
    (k ≤ e.ptr → decPtrBy e k = .ok { e with ptr := e.ptr - k }) ∧
    (¬ k ≤ e.ptr → decPtrBy e k = .error .Underflow) ∧
    ((s.ptr : Int) + lo < 0 → s.mul w lo hi args = .error .Underflow) ∧
    (0 ≤ (s.ptr : Int) + lo → (s.cells.length : Int) ≤ (s.ptr : Int) + hi →
      s.mul w lo hi args = .error .Overflow) ∧
    (∀ s2, s.mul w lo hi args = .ok s2 →
      (s.ptr : Int) + hi < (s.cells.length : Int) ∧ s2.ptr = s.ptr ∧
        s2.cells.length = s.cells.length ∧ s2.ptr < s2.cells.length) := by
  have hU : (U64 : Int) = 2 ^ 64 := by norm_num [U64]
  have hU2 : U64 = 2 ^ 64 := by norm_num [U64]
  refine ⟨?_, ?_, ?_, ?_, ?_, ?_, ?_, ?_, ?_, ?_, ?_⟩
  · intro h
    rw [BfState.incPtr, if_pos (by omega), if_pos h]
  · intro h
    rw [BfState.incPtr]
    by_cases h2 : s.ptr + k < U64
    · rw [if_pos h2, if_neg h]
    · rw [if_neg h2]
  · intro h
    rw [BfState.decPtr, if_pos h]
  · intro h
    rw [BfState.decPtr, if_neg h]
  · intro h
    rw [incPtrBy]
    rw [Nat.mod_eq_of_lt (by omega)]
    rw [if_neg (by omega)]
  · intro h
    rw [incPtrBy]
    rw [Nat.mod_eq_of_lt (by omega)]
    rw [if_pos (by omega)]
  · intro h
    rw [decPtrBy, if_pos h]
  · intro h
    rw [decPtrBy, if_neg h]
  · intro h
    rw [BfState.mul]
    have hnone : checkedAddSigned s.ptr lo = none := by
      rw [checkedAddSigned, if_neg (by omega)]
    rw [hnone]
  · intro h1 h2
    rw [BfState.mul]
    have hsome1 : checkedAddSigned s.ptr lo = some ((s.ptr : Int) + lo).toNat := by
      rw [checkedAddSigned, if_pos (by constructor <;> omega)]
    have hsome2 : checkedAddSigned s.ptr hi = some ((s.ptr : Int) + hi).toNat := by
      rw [checkedAddSigned, if_pos (by constructor <;> omega)]
    rw [hsome1, hsome2]
    dsimp only
    rw [if_pos (by omega), if_neg (by omega)]
  · intro s2 hok
    rw [BfState.mul] at hok
    rcases hc1 : checkedAddSigned s.ptr lo with _ | lower
    · rw [hc1] at hok
      cases hok
    · rcases hc2 : checkedAddSigned s.ptr hi with _ | upper
      · rw [hc1, hc2] at hok
        cases hok
      · rw [hc1, hc2] at hok
        dsimp only at hok
        by_cases hb1 : lower < s.cells.length
        · by_cases hb2 : upper < s.cells.length
          · rw [if_pos hb1, if_pos hb2] at hok
            have hs2 : s2 = args.foldl (mulStep w s.get) s.zero := (Except.ok.inj hok).symm
            have hpres := mulFold_preserves w s.get args s.zero
            have hzero : (s.zero).ptr = s.ptr ∧ (s.zero).cells.length = s.cells.length := by
              constructor <;> simp [BfState.zero, BfState.set]
            have hupper : upper = ((s.ptr : Int) + hi).toNat := by
              rw [checkedAddSigned] at hc2
              by_cases hcc : 0 ≤ (s.ptr : Int) + hi ∧ (s.ptr : Int) + hi < (U64 : Int)
              · rw [if_pos hcc] at hc2
                exact (Option.some.inj hc2).symm
              · rw [if_neg hcc] at hc2
                cases hc2
            refine ⟨by omega, ?_, ?_, ?_⟩
            · rw [hs2]
              rw [hpres.1, hzero.1]
            · rw [hs2, hpres.2.1, hzero.2]
            · rw [hs2, hpres.1, hpres.2.1, hzero.1, hzero.2]
              exact hp
          · rw [if_pos hb1, if_neg hb2] at hok
            cases hok
        · rw [if_neg hb1] at hok
          cases hok

/-- Witness for claim C3 at a concrete state: a 3-cell tape with the head
at 1 and the multiply recipe of the loop that moves the cell right. -/
theorem claim_C3_witness :
    (⟨1, [7, 5, 0], [], []⟩ : BfState).incPtr 1 = .ok ⟨2, [7, 5, 0], [], []⟩ ∧
    (⟨1, [7, 5, 0], [], []⟩ : BfState).incPtr 2 = .error .Overflow ∧
    (⟨1, [7, 5, 0], [], []⟩ : BfState).decPtr 2 = .error .Underflow := by
  have h := claim_C3 8 ⟨1, [7, 5, 0], [], []⟩ ⟨0, [0], [], []⟩ 1 0 1 []
    (by decide) (by norm_num) (by decide) (by norm_num) (by norm_num)
    (by decide) (by decide) (by norm_num)
  have h2 := claim_C3 8 ⟨1, [7, 5, 0], [], []⟩ ⟨0, [0], [], []⟩ 2 0 1 []
    (by decide) (by norm_num) (by decide) (by norm_num) (by norm_num)
    (by decide) (by decide) (by norm_num)
  exact ⟨h.1 (by decide), h2.2.1 (by decide), h2.2.2.2.1 (by decide)⟩


theorem cellAdd_i64wrap (w : Nat) (hw : w ≤ 64) (c : Nat) (x : Int) :
    cellAdd w c (i64wrap x) = (((c : Int) + x).emod (2 ^ w)).toNat := by
  unfold cellAdd i64wrap
  congr 1
  have hdvd : (2 : Int) ^ w ∣ 2 ^ 64 := pow_dvd_pow 2 hw
  have h1 : ((x + 2 ^ 63).emod (2 ^ 64)).emod (2 ^ w) = (x + 2 ^ 63).emod (2 ^ w) :=
    Int.emod_emod_of_dvd _ hdvd
  have h2 : ((c : Int) + ((x + 2 ^ 63).emod (2 ^ 64) - 2 ^ 63)).emod (2 ^ w)
      = ((c : Int) + (x + 2 ^ 63 - 2 ^ 63)).emod (2 ^ w) := by
    apply Int.ModEq.add_left
    apply Int.ModEq.sub_right
    exact h1
  rw [h2]
  ring_nf

theorem mulStep_ptr (w : Nat) (v : Int) (st : BfState) (a : MulArg) :
    (mulStep w v st a).ptr = st.ptr := rfl

theorem mulStep_len (w : Nat) (v : Int) (st : BfState) (a : MulArg) :
    (mulStep w v st a).cells.length = st.cells.length := by
  simp [mulStep]

theorem mulFold_cells (w : Nat) (v : Int) :
    ∀ (args : List MulArg) (st : BfState) (q : Nat),
    (∀ a ∈ args, 0 ≤ (st.ptr : Int) + a.offset ∧
      (st.ptr : Int) + a.offset < (st.cells.length : Int)) →
    (args.map MulArg.offset).Nodup →
    ((args.find? (fun a => (q : Int) == (st.ptr : Int) + a.offset) = none ∧
      (args.foldl (mulStep w v) st).cells.getD q 0 = st.cells.getD q 0) ∨
     (∃ a, args.find? (fun a => (q : Int) == (st.ptr : Int) + a.offset) = some a ∧
      (args.foldl (mulStep w v) st).cells.getD q 0
        = cellAdd w (st.cells.getD q 0) (i64wrap (v * a.change)))) := by
  intro args
  induction args with
  | nil =>
    intro st q hbound hnodup
    left
    exact ⟨rfl, rfl⟩
  | cons a rest ih =>
    intro st q hbound hnodup
    obtain ⟨hb0, hbl⟩ := hbound a (List.mem_cons_self a rest)
    have hbr : ∀ x ∈ rest, 0 ≤ ((mulStep w v st a).ptr : Int) + x.offset ∧
        ((mulStep w v st a).ptr : Int) + x.offset < ((mulStep w v st a).cells.length : Int) := by
      intro x hx
      rw [mulStep_ptr, mulStep_len]
      exact hbound x (List.mem_cons_of_mem a hx)
    have hnr : (rest.map MulArg.offset).Nodup := (List.nodup_cons.mp hnodup).2
    have hoffna : a.offset ∉ rest.map MulArg.offset := (List.nodup_cons.mp hnodup).1
    by_cases hqa : (q : Int) = (st.ptr : Int) + a.offset
    · right
      have hfind : (a :: rest).find? (fun x => (q : Int) == (st.ptr : Int) + x.offset)
          = some a := by
        rw [List.find?_cons_of_pos]
        simp [hqa]
      refine ⟨a, hfind, ?_⟩
      have hqlt : q < st.cells.length := by omega
      have hqj : ((st.ptr : Int) + a.offset).toNat = q := by omega
      have hstep : (mulStep w v st a).cells.getD q 0
          = cellAdd w (st.cells.getD q 0) (i64wrap (v * a.change)) := by
        simp only [mulStep, hqj]
        rw [List.getD_eq_getElem?_getD, List.getElem?_set_self (by omega),
          List.getD_eq_getElem?_getD]
        rfl
      have hrec := ih (mulStep w v st a) q hbr hnr
      rcases hrec with ⟨hfn, heq⟩ | ⟨a2, hf2, heq2⟩
      · rw [List.foldl_cons, heq, hstep]
      · exfalso
        have hpred := List.find?_some hf2
        have hmem := List.mem_of_find?_eq_some hf2
        rw [mulStep_ptr] at hpred
        simp only [beq_iff_eq] at hpred
        have : a2.offset = a.offset := by omega
        exact hoffna (this ▸ List.mem_map_of_mem MulArg.offset hmem)
    · have hfind : (a :: rest).find? (fun x => (q : Int) == (st.ptr : Int) + x.offset)
          = rest.find? (fun x => (q : Int) == (st.ptr : Int) + x.offset) := by
        rw [List.find?_cons_of_neg]
        simp [hqa]
      have hstep : (mulStep w v st a).cells.getD q 0 = st.cells.getD q 0 := by
        simp only [mulStep]
        have hne : ((st.ptr : Int) + a.offset).toNat ≠ q := by omega
        rw [List.getD_eq_getElem?_getD, List.getElem?_set_ne hne,
          List.getD_eq_getElem?_getD]
      have hrec := ih (mulStep w v st a) q hbr hnr
      have hpeq : ((mulStep w v st a).ptr : Int) = (st.ptr : Int) := by rw [mulStep_ptr]
      rcases hrec with ⟨hfn, heq⟩ | ⟨a2, hf2, heq2⟩
      · left
        rw [mulStep_ptr] at hfn
        refine ⟨by rw [hfind]; exact hfn, ?_⟩
        rw [List.foldl_cons, heq, hstep]
      · right
        rw [mulStep_ptr] at hf2
        refine ⟨a2, by rw [hfind]; exact hf2, ?_⟩
        rw [List.foldl_cons, heq2, hstep]


theorem nodup_map_inj {α β : Type} (f : α → β) :
    ∀ (l : List α), (l.map f).Nodup → ∀ x ∈ l, ∀ y ∈ l, f x = f y → x = y := by
  intro l
  induction l with
  | nil => intro _ x hx; cases hx
  | cons a rest ih =>
    intro hnd x hx y hy hf
    rw [List.map_cons, List.nodup_cons] at hnd
    rcases List.mem_cons.mp hx with rfl | hx2
    · rcases List.mem_cons.mp hy with rfl | hy2
      · rfl
      · exact absurd (by rw [hf]; exact List.mem_map_of_mem f hy2) hnd.1
    · rcases List.mem_cons.mp hy with rfl | hy2
      · exact absurd (by rw [← hf]; exact List.mem_map_of_mem f hx2) hnd.1
      · exact ih hnd.2 x hx2 y hy2 hf

/-- Claim C5: for a tape state with the head in bounds (tape length at most
2^63 so usize adds cannot overflow, recipe range containing 0 and below
2^63, offsets inside the range, nonzero and distinct, cell width at most
64 bits), BfState::mul first checks p + lo ≥ 0 (else Underflow) and
p + hi < N (else Overflow), then zeroes cell\[p\], adds
truncate(v * delta) into cell\[p + offset\] in the cell width's wrapping
arithmetic for each recipe argument, and changes no other cell. -/
theorem claim_C5 (w : Nat) (s : BfState) (lo hi : Int) (args : List MulArg)
    (hw : w ≤ 64)
    (hp : s.ptr < s.cells.length) (hN : s.cells.length ≤ 2 ^ 63)
    (hlo : lo ≤ 0) (hhi : 0 ≤ hi) (hhi2 : hi < 2 ^ 63)
    (hargs : ∀ a ∈ args, lo ≤ a.offset ∧ a.offset ≤ hi ∧ a.offset ≠ 0)
    (hnodup : (args.map MulArg.offset).Nodup) :
    ((s.ptr : Int) + lo < 0 → s.mul w lo hi args = .error .Underflow) ∧
    (0 ≤ (s.ptr : Int) + lo → (s.cells.length : Int) ≤ (s.ptr : Int) + hi →
      s.mul w lo hi args = .error .Overflow) ∧
    (0 ≤ (s.ptr : Int) + lo → (s.ptr : Int) + hi < (s.cells.length : Int) →
      ∃ s2, s.mul w lo hi args = .ok s2 ∧ s2.ptr = s.ptr ∧ s2.input = s.input ∧
        s2.output = s.output ∧ s2.cells.length = s.cells.length ∧
        s2.cells.getD s.ptr 0 = 0 ∧
        (∀ a ∈ args, s2.cells.getD ((s.ptr : Int) + a.offset).toNat 0
          = (((s.cells.getD ((s.ptr : Int) + a.offset).toNat 0 : Int)
              + (s.get : Int) * a.change).emod (2 ^ w)).toNat) ∧
        (∀ q : Nat, q ≠ s.ptr → (∀ a ∈ args, (q : Int) ≠ (s.ptr : Int) + a.offset) →
          s2.cells.getD q 0 = s.cells.getD q 0)) := by
  have hU : (U64 : Int) = 2 ^ 64 := by norm_num [U64]
  refine ⟨?_, ?_, ?_⟩
  · intro h
    rw [BfState.mul]
    have hnone : checkedAddSigned s.ptr lo = none := by
      rw [checkedAddSigned, if_neg (by omega)]
    rw [hnone]
  · intro h1 h2
    rw [BfState.mul]
    have hsome1 : checkedAddSigned s.ptr lo = some ((s.ptr : Int) + lo).toNat := by
      rw [checkedAddSigned, if_pos (by constructor <;> omega)]
    have hsome2 : checkedAddSigned s.ptr hi = some ((s.ptr : Int) + hi).toNat := by
      rw [checkedAddSigned, if_pos (by constructor <;> omega)]
    rw [hsome1, hsome2]
    dsimp only
    rw [if_pos (by omega), if_neg (by omega)]
  · intro h1 h2
    rw [BfState.mul]
    have hsome1 : checkedAddSigned s.ptr lo = some ((s.ptr : Int) + lo).toNat := by
      rw [checkedAddSigned, if_pos (by constructor <;> omega)]
    have hsome2 : checkedAddSigned s.ptr hi = some ((s.ptr : Int) + hi).toNat := by
      rw [checkedAddSigned, if_pos (by constructor <;> omega)]
    rw [hsome1, hsome2]
    dsimp only
    rw [if_pos (by omega), if_pos (by omega)]
    have hpres := mulFold_preserves w s.get args s.zero
    have hzptr : (s.zero).ptr = s.ptr := rfl
    have hzlen : (s.zero).cells.length = s.cells.length := by
      simp [BfState.zero, BfState.set]
    have hzq : ∀ q : Nat, q ≠ s.ptr → (s.zero).cells.getD q 0 = s.cells.getD q 0 := by
      intro q hq
      simp only [BfState.zero, BfState.set]
      rw [List.getD_eq_getElem?_getD, List.getElem?_set_ne (Ne.symm hq),
        List.getD_eq_getElem?_getD]
    have hbound : ∀ a ∈ args, 0 ≤ ((s.zero).ptr : Int) + a.offset ∧
        ((s.zero).ptr : Int) + a.offset < ((s.zero).cells.length : Int) := by
      intro a ha
      obtain ⟨ha1, ha2, _⟩ := hargs a ha
      rw [hzptr, hzlen]
      constructor <;> omega
    refine ⟨args.foldl (mulStep w s.get) s.zero, rfl, hpres.1.trans hzptr,
      hpres.2.2.1, hpres.2.2.2, hpres.2.1.trans hzlen, ?_, ?_, ?_⟩
    · have hc := mulFold_cells w s.get args s.zero s.ptr hbound hnodup
      rcases hc with ⟨hfn, heq⟩ | ⟨a2, hf2, heq2⟩
      · rw [heq]
        simp only [BfState.zero, BfState.set]
        rw [List.getD_eq_getElem?_getD, List.getElem?_set_self hp]
        rfl
      · exfalso
        have hmem := List.mem_of_find?_eq_some hf2
        have hpred := List.find?_some hf2
        rw [hzptr] at hpred
        simp only [beq_iff_eq] at hpred
        exact (hargs a2 hmem).2.2 (by omega)
    · intro a ha
      obtain ⟨ha1, ha2, ha0⟩ := hargs a ha
      have hge : 0 ≤ (s.ptr : Int) + a.offset := by omega
      have hc := mulFold_cells w s.get args s.zero
        ((s.ptr : Int) + a.offset).toNat hbound hnodup
      rcases hc with ⟨hfn, heq⟩ | ⟨a2, hf2, heq2⟩
      · exfalso
        have := List.find?_eq_none.mp hfn a ha
        rw [hzptr] at this
        simp only [beq_iff_eq] at this
        exact this (by omega)
      · have hmem := List.mem_of_find?_eq_some hf2
        have hpred := List.find?_some hf2
        rw [hzptr] at hpred
        simp only [beq_iff_eq] at hpred
        have hoff : a2.offset = a.offset := by omega
        have ha2a : a2 = a :=
          nodup_map_inj MulArg.offset args hnodup a2 hmem a ha hoff
        rw [heq2, ha2a]
        have hqne : ((s.ptr : Int) + a.offset).toNat ≠ s.ptr := by omega
        rw [hzq _ hqne, cellAdd_i64wrap w hw]
    · intro q hq hnone
      have hc := mulFold_cells w s.get args s.zero q hbound hnodup
      rcases hc with ⟨hfn, heq⟩ | ⟨a2, hf2, heq2⟩
      · rw [heq, hzq q hq]
      · exfalso
        have hmem := List.mem_of_find?_eq_some hf2
        have hpred := List.find?_some hf2
        rw [hzptr] at hpred
        simp only [beq_iff_eq] at hpred
        exact hnone a2 hmem hpred

/-- Witness for claim C5: the recipe of the loop body -\>++\< (range 0..1,
one argument with offset 1 and delta 2) on a 2-cell tape holding 3 at the
head: Underflow when the range start drops below zero, Overflow when the
range end reaches the tape length, and on success the head cell is zeroed
and cell 1 becomes 3 * 2 = 6. -/
theorem claim_C5_witness :
    (⟨0, [3, 0], [], []⟩ : BfState).mul 8 (-1) 1 [⟨1, 2⟩] = .error .Underflow ∧
    (⟨0, [3, 0], [], []⟩ : BfState).mul 8 0 2 [⟨1, 2⟩] = .error .Overflow ∧
    (⟨0, [3, 0], [], []⟩ : BfState).mul 8 0 1 [⟨1, 2⟩] = .ok ⟨0, [0, 6], [], []⟩ := by
  have h1 := claim_C5 8 ⟨0, [3, 0], [], []⟩ (-1) 1 [⟨1, 2⟩]
    (by norm_num) (by decide) (by norm_num) (by decide) (by decide) (by norm_num)
    (by decide) (by decide)
  have h2 := claim_C5 8 ⟨0, [3, 0], [], []⟩ 0 2 [⟨1, 2⟩]
    (by norm_num) (by decide) (by norm_num) (by decide) (by decide) (by norm_num)
    (by decide) (by decide)
  exact ⟨h1.1 (by decide), h2.2.1 (by decide) (by decide), by rfl⟩


theorem asMultiplyGo_eq_simSpec : ∀ (l : List ITree) (st : MulSim),
    st.lo ≤ (st.idx : Int) - 32 → (st.idx : Int) - 32 ≤ st.hi →
    asMultiplyGo l st = simSpecGo l st := by
  intro l
  induction l with
  | nil => intro st h1 h2; rfl
  | cons t rest ih =>
    intro st h1 h2
    cases t with
    | Inc b =>
      simp only [asMultiplyGo, simSpecGo]
      split
      · exact ih _ h1 h2
      · rfl
    | Dec b =>
      simp only [asMultiplyGo, simSpecGo]
      split
      · exact ih _ h1 h2
      · rfl
    | IncPtr b =>
      simp only [asMultiplyGo, simSpecGo]
      split
      · split
        · rename_i hU hlt
          have hmin : min st.lo ((st.idx + b : Int) - 32) = st.lo := by omega
          rw [hmin]
          refine ih _ ?_ ?_ <;> simp <;> omega
        · rfl
      · rfl
    | DecPtr b =>
      simp only [asMultiplyGo, simSpecGo]
      split
      · rename_i hb
        have hmax : max st.hi (((st.idx - b : Nat) : Int) - 32) = st.hi := by omega
        rw [hmax]
        refine ih _ ?_ ?_ <;> simp <;> omega
      · rfl
    | Zero => rfl
    | Mul lo hi args => rfl
    | Read => rfl
    | Write => rfl
    | Loop c => rfl
    | WriteLoop c => rfl
    | If c => rfl

theorem asMultiplyGo_not_allowed : ∀ (l : List ITree) (st : MulSim),
    l.all allowedNode = false → asMultiplyGo l st = none := by
  intro l
  induction l with
  | nil => intro st h; cases h
  | cons t rest ih =>
    intro st h
    rw [List.all_cons] at h
    cases t with
    | Inc b =>
      have hr : rest.all allowedNode = false := by
        simpa [allowedNode] using h
      simp only [asMultiplyGo]
      split
      · exact ih _ hr
      · rfl
    | Dec b =>
      have hr : rest.all allowedNode = false := by
        simpa [allowedNode] using h
      simp only [asMultiplyGo]
      split
      · exact ih _ hr
      · rfl
    | IncPtr b =>
      have hr : rest.all allowedNode = false := by
        simpa [allowedNode] using h
      simp only [asMultiplyGo]
      split
      · split
        · exact ih _ hr
        · rfl
      · rfl
    | DecPtr b =>
      have hr : rest.all allowedNode = false := by
        simpa [allowedNode] using h
      simp only [asMultiplyGo]
      split
      · exact ih _ hr
      · rfl
    | Zero => rfl
    | Mul lo hi args => rfl
    | Read => rfl
    | Write => rfl
    | Loop c => rfl
    | WriteLoop c => rfl
    | If c => rfl

/-- Claim C6: ITree::as_multiply accepts a loop body iff the body consists
only of Inc/Dec/IncPtr/DecPtr nodes and the 64-cell i64 scratch simulation
started at index 32 succeeds, returning the head to 32 with the cell there
equal to -1, and it then returns the min/max head excursion as the range
and one argument per nonzero scratch cell other than index 32 — stated as
equality with the spec-worded predicate on every body. -/
theorem claim_C6 (body : List ITree) : ITree.asMultiply body = asMultiplySpec body := by
  rw [ITree.asMultiply, asMultiplySpec]
  by_cases hall : body.all allowedNode
  · rw [if_pos hall,
      asMultiplyGo_eq_simSpec body ⟨List.replicate 64 0, 32, 0, 0⟩ (by norm_num) (by norm_num)]
  · rw [if_neg hall, asMultiplyGo_not_allowed body _ (by simpa using hall)]



theorem incPtrBy_pres (e : ExecSt) (v : Nat) (e2 : ExecSt) (h : incPtrBy e v = .ok e2) :
    e2.data.length = e.data.length ∧ e2.ptr < e2.data.length := by
  simp only [incPtrBy] at h
  split at h
  · cases h
  · rename_i hlt
    rw [← Except.ok.inj h]
    exact ⟨rfl, Nat.lt_of_not_le hlt⟩

theorem decPtrBy_pres (e : ExecSt) (v : Nat) (e2 : ExecSt) (hp : e.ptr < e.data.length)
    (h : decPtrBy e v = .ok e2) :
    e2.data.length = e.data.length ∧ e2.ptr < e2.data.length := by
  rw [decPtrBy] at h
  split at h
  · rw [← Except.ok.inj h]
    refine ⟨rfl, ?_⟩
    show e.ptr - v < e.data.length
    omega
  · cases h

theorem incPtrBy_err (e : ExecSt) (v : Nat) (t : BfExecErrorTy)
    (h : incPtrBy e v = .error t) : t = .Overflow := by
  simp only [incPtrBy] at h
  split at h
  · exact (Except.error.inj h).symm
  · cases h

theorem decPtrBy_err (e : ExecSt) (v : Nat) (t : BfExecErrorTy)
    (h : decPtrBy e v = .error t) : t = .Underflow := by
  rw [decPtrBy] at h
  split at h
  · cases h
  · exact (Except.error.inj h).symm

theorem execInstr_pres (w : Nat) (e : ExecSt) (idx : Nat) (i : BfInstruc Nat)
    (e2 : ExecSt) (idx2 : Nat) (hp : e.ptr < e.data.length)
    (h : execInstr w e idx i = .ok (e2, idx2)) :
    e2.data.length = e.data.length ∧ e2.ptr < e2.data.length := by
  cases i
  case IncPtr =>
    rcases hd : incPtrBy e 1 with t | e3 <;> rw [execInstr, hd] at h
    · exact Except.noConfusion h
    · simp only [Except.map, Except.ok.injEq, Prod.mk.injEq] at h
      rw [← h.1]
      exact incPtrBy_pres e 1 e3 hd
  case DecPtr =>
    rcases hd : decPtrBy e 1 with t | e3 <;> rw [execInstr, hd] at h
    · exact Except.noConfusion h
    · simp only [Except.map, Except.ok.injEq, Prod.mk.injEq] at h
      rw [← h.1]
      exact decPtrBy_pres e 1 e3 hp hd
  case IncPtrBy v =>
    rcases hd : incPtrBy e v with t | e3 <;> rw [execInstr, hd] at h
    · exact Except.noConfusion h
    · simp only [Except.map, Except.ok.injEq, Prod.mk.injEq] at h
      rw [← h.1]
      exact incPtrBy_pres e v e3 hd
  case DecPtrBy v =>
    rcases hd : decPtrBy e v with t | e3 <;> rw [execInstr, hd] at h
    · exact Except.noConfusion h
    · simp only [Except.map, Except.ok.injEq, Prod.mk.injEq] at h
      rw [← h.1]
      exact decPtrBy_pres e v e3 hp hd
  case Read =>
    rcases hi : e.input with _ | ⟨b, rest⟩ <;> rw [execInstr, hi] at h <;>
      simp only [Except.ok.injEq, Prod.mk.injEq] at h <;> rw [← h.1] <;>
      refine ⟨by simp [List.length_set], ?_⟩ <;> simpa [List.length_set] using hp
  all_goals
    simp only [execInstr, Except.ok.injEq, Prod.mk.injEq] at h
  all_goals
    rw [← h.1]
  all_goals
    refine ⟨by simp [List.length_set], ?_⟩
  all_goals
    simpa [List.length_set] using hp

theorem execInstr_no_nei (w : Nat) (e : ExecSt) (idx : Nat) (i : BfInstruc Nat)
    (t : BfExecErrorTy) (h : execInstr w e idx i = .error t) :
    t ≠ .NotEnoughInstructions ∧ t ≠ .InitOverflow := by
  cases i
  case IncPtr =>
    rcases hd : incPtrBy e 1 with t2 | e3 <;> rw [execInstr, hd] at h
    · rw [(Except.error.inj h).symm, incPtrBy_err e 1 t2 hd]
      exact ⟨by simp, by simp⟩
    · exact Except.noConfusion h
  case DecPtr =>
    rcases hd : decPtrBy e 1 with t2 | e3 <;> rw [execInstr, hd] at h
    · rw [(Except.error.inj h).symm, decPtrBy_err e 1 t2 hd]
      exact ⟨by simp, by simp⟩
    · exact Except.noConfusion h
  case IncPtrBy v =>
    rcases hd : incPtrBy e v with t2 | e3 <;> rw [execInstr, hd] at h
    · rw [(Except.error.inj h).symm, incPtrBy_err e v t2 hd]
      exact ⟨by simp, by simp⟩
    · exact Except.noConfusion h
  case DecPtrBy v =>
    rcases hd : decPtrBy e v with t2 | e3 <;> rw [execInstr, hd] at h
    · rw [(Except.error.inj h).symm, decPtrBy_err e v t2 hd]
      exact ⟨by simp, by simp⟩
    · exact Except.noConfusion h
  case Read =>
    rcases hi : e.input with _ | ⟨b, rest⟩ <;> rw [execInstr, hi] at h <;>
      exact Except.noConfusion h
  all_goals
    rw [execInstr] at h
  all_goals
    exact Except.noConfusion h


theorem runGo_zero_lt (w : Nat) (stream : List (BfInstruc Nat)) (e : ExecSt) (idx : Nat)
    (hlt : idx < stream.length) : runGo w stream 0 e idx = none := by
  rw [runGo.eq_def, dif_pos hlt]

theorem runGo_exit (w : Nat) (stream : List (BfInstruc Nat)) (fuel : Nat) (e : ExecSt)
    (idx : Nat) (hge : ¬ idx < stream.length) : runGo w stream fuel e idx = some (.ok e) := by
  rw [runGo.eq_def, dif_neg hge]

theorem runGo_succ_err (w : Nat) (stream : List (BfInstruc Nat)) (fuel : Nat) (e : ExecSt)
    (idx : Nat) (t : BfExecErrorTy) (hlt : idx < stream.length)
    (hx : execInstr w e idx stream[idx] = .error t) :
    runGo w stream (fuel + 1) e idx = some (.error (e, idx, t)) := by
  rw [runGo.eq_def, dif_pos hlt]
  show (match execInstr w e idx stream[idx] with
    | .error t => some (Except.error (e, idx, t))
    | .ok (e2, idx2) => runGo w stream fuel e2 (idx2 + 1)) = _
  rw [hx]

theorem runGo_succ_ok (w : Nat) (stream : List (BfInstruc Nat)) (fuel : Nat) (e : ExecSt)
    (idx : Nat) (e2 : ExecSt) (idx2 : Nat) (hlt : idx < stream.length)
    (hx : execInstr w e idx stream[idx] = .ok (e2, idx2)) :
    runGo w stream (fuel + 1) e idx = runGo w stream fuel e2 (idx2 + 1) := by
  rw [runGo.eq_def, dif_pos hlt]
  show (match execInstr w e idx stream[idx] with
    | .error t => some (Except.error (e, idx, t))
    | .ok (e2, idx2) => runGo w stream fuel e2 (idx2 + 1)) = _
  rw [hx]

theorem runLimitedGo_zero_lt (w : Nat) (stream : List (BfInstruc Nat)) (e : ExecSt)
    (idx : Nat) (hlt : idx < stream.length) :
    runLimitedGo w stream 0 e idx = .err e idx 0 .NotEnoughInstructions := by
  rw [runLimitedGo.eq_def, dif_pos hlt]

theorem runLimitedGo_exit (w : Nat) (stream : List (BfInstruc Nat)) (limit : Nat)
    (e : ExecSt) (idx : Nat) (hge : ¬ idx < stream.length) :
    runLimitedGo w stream limit e idx = .ok e limit := by
  rw [runLimitedGo.eq_def, dif_neg hge]

theorem runLimitedGo_succ_err (w : Nat) (stream : List (BfInstruc Nat)) (limit : Nat)
    (e : ExecSt) (idx : Nat) (t : BfExecErrorTy) (hlt : idx < stream.length)
    (hx : execInstr w e idx stream[idx] = .error t) :
    runLimitedGo w stream (limit + 1) e idx = .err e idx (limit + 1) t := by
  rw [runLimitedGo.eq_def, dif_pos hlt]
  show (match execInstr w e idx stream[idx] with
    | .error t => RunRes.err e idx (limit + 1) t
    | .ok (e2, idx2) => runLimitedGo w stream limit e2 (idx2 + 1)) = _
  rw [hx]

theorem runLimitedGo_succ_ok (w : Nat) (stream : List (BfInstruc Nat)) (limit : Nat)
    (e : ExecSt) (idx : Nat) (e2 : ExecSt) (idx2 : Nat) (hlt : idx < stream.length)
    (hx : execInstr w e idx stream[idx] = .ok (e2, idx2)) :
    runLimitedGo w stream (limit + 1) e idx = runLimitedGo w stream limit e2 (idx2 + 1) := by
  rw [runLimitedGo.eq_def, dif_pos hlt]
  show (match execInstr w e idx stream[idx] with
    | .error t => RunRes.err e idx (limit + 1) t
    | .ok (e2, idx2) => runLimitedGo w stream limit e2 (idx2 + 1)) = _
  rw [hx]

theorem runGo_stable (w : Nat) (stream : List (BfInstruc Nat)) :
    ∀ (a b : Nat) (e : ExecSt) (idx : Nat)
      (r : Except (ExecSt × Nat × BfExecErrorTy) ExecSt), a ≤ b →
    runGo w stream a e idx = some r → runGo w stream b e idx = some r := by
  intro a
  induction a with
  | zero =>
    intro b e idx r hab h
    by_cases hlt : idx < stream.length
    · rw [runGo_zero_lt w stream e idx hlt] at h
      cases h
    · rw [runGo_exit w stream 0 e idx hlt] at h
      rw [runGo_exit w stream b e idx hlt]
      exact h
  | succ a ih =>
    intro b e idx r hab h
    by_cases hlt : idx < stream.length
    · obtain ⟨b2, rfl⟩ : ∃ b2, b = b2 + 1 := ⟨b - 1, by omega⟩
      rcases hx : execInstr w e idx stream[idx] with t | ⟨e2, idx2⟩
      · rw [runGo_succ_err w stream a e idx t hlt hx] at h
        rw [runGo_succ_err w stream b2 e idx t hlt hx]
        exact h
      · rw [runGo_succ_ok w stream a e idx e2 idx2 hlt hx] at h
        rw [runGo_succ_ok w stream b2 e idx e2 idx2 hlt hx]
        exact ih b2 e2 (idx2 + 1) r (by omega) h
    · rw [runGo_exit w stream (a + 1) e idx hlt] at h
      rw [runGo_exit w stream b e idx hlt]
      exact h


theorem runGo_none_limited (w : Nat) (stream : List (BfInstruc Nat)) :
    ∀ (b : Nat) (e : ExecSt) (idx : Nat),
    e.ptr < e.data.length →
    runGo w stream b e idx = none →
    ∃ e2 idx2, idx2 < stream.length ∧ e2.ptr < e2.data.length ∧
      runLimitedGo w stream b e idx = .err e2 idx2 0 .NotEnoughInstructions ∧
      ∀ g, runGo w stream (b + g) e idx = runGo w stream g e2 idx2 := by
  intro b
  induction b with
  | zero =>
    intro e idx hp h
    by_cases hlt : idx < stream.length
    · refine ⟨e, idx, hlt, hp, runLimitedGo_zero_lt w stream e idx hlt, ?_⟩
      intro g
      rw [Nat.zero_add]
    · rw [runGo_exit w stream 0 e idx hlt] at h
      cases h
  | succ b ih =>
    intro e idx hp h
    by_cases hlt : idx < stream.length
    · rcases hx : execInstr w e idx stream[idx] with t | ⟨e2, idx2⟩
      · rw [runGo_succ_err w stream b e idx t hlt hx] at h
        cases h
      · rw [runGo_succ_ok w stream b e idx e2 idx2 hlt hx] at h
        have hp2 := (execInstr_pres w e idx _ e2 idx2 hp hx).2
        obtain ⟨e3, idx3, h1, h2, h3, h4⟩ := ih e2 (idx2 + 1) hp2 h
        refine ⟨e3, idx3, h1, h2, ?_, ?_⟩
        · rw [runLimitedGo_succ_ok w stream b e idx e2 idx2 hlt hx]
          exact h3
        · intro g
          have hadd : b + 1 + g = (b + g) + 1 := by omega
          rw [hadd, runGo_succ_ok w stream (b + g) e idx e2 idx2 hlt hx]
          exact h4 g
    · rw [runGo_exit w stream (b + 1) e idx hlt] at h
      cases h

theorem runGo_ok_limited (w : Nat) (stream : List (BfInstruc Nat)) :
    ∀ (b : Nat) (e : ExecSt) (idx : Nat) (e2 : ExecSt),
    runGo w stream b e idx = some (.ok e2) →
    ∃ n, n ≤ b ∧ ∀ b2, runLimitedGo w stream (n + b2) e idx = .ok e2 b2 := by
  intro b
  induction b with
  | zero =>
    intro e idx e2 h
    by_cases hlt : idx < stream.length
    · rw [runGo_zero_lt w stream e idx hlt] at h
      cases h
    · rw [runGo_exit w stream 0 e idx hlt] at h
      refine ⟨0, Nat.le_refl 0, ?_⟩
      intro b2
      rw [Nat.zero_add, runLimitedGo_exit w stream b2 e idx hlt]
      rw [(Except.ok.inj (Option.some.inj h))]
  | succ b ih =>
    intro e idx e2 h
    by_cases hlt : idx < stream.length
    · rcases hx : execInstr w e idx stream[idx] with t | ⟨e3, idx3⟩
      · rw [runGo_succ_err w stream b e idx t hlt hx] at h
        cases Option.some.inj h
      · rw [runGo_succ_ok w stream b e idx e3 idx3 hlt hx] at h
        obtain ⟨n, hn, hall⟩ := ih e3 (idx3 + 1) e2 h
        refine ⟨n + 1, by omega, ?_⟩
        intro b2
        have hadd : n + 1 + b2 = (n + b2) + 1 := by omega
        rw [hadd, runLimitedGo_succ_ok w stream (n + b2) e idx e3 idx3 hlt hx]
        exact hall b2
    · rw [runGo_exit w stream (b + 1) e idx hlt] at h
      refine ⟨0, Nat.zero_le _, ?_⟩
      intro b2
      rw [Nat.zero_add, runLimitedGo_exit w stream b2 e idx hlt]
      rw [(Except.ok.inj (Option.some.inj h))]

theorem runGo_err_limited (w : Nat) (stream : List (BfInstruc Nat)) :
    ∀ (b : Nat) (e : ExecSt) (idx : Nat) (e2 : ExecSt) (idx2 : Nat) (t : BfExecErrorTy),
    runGo w stream b e idx = some (.error (e2, idx2, t)) →
    t ≠ .NotEnoughInstructions ∧ t ≠ .InitOverflow ∧
    ∃ n, n < b ∧ ∀ b2, runLimitedGo w stream (n + b2 + 1) e idx = .err e2 idx2 (b2 + 1) t := by
  intro b
  induction b with
  | zero =>
    intro e idx e2 idx2 t h
    by_cases hlt : idx < stream.length
    · rw [runGo_zero_lt w stream e idx hlt] at h
      cases h
    · rw [runGo_exit w stream 0 e idx hlt] at h
      cases Option.some.inj h
  | succ b ih =>
    intro e idx e2 idx2 t h
    by_cases hlt : idx < stream.length
    · rcases hx : execInstr w e idx stream[idx] with t2 | ⟨e3, idx3⟩
      · rw [runGo_succ_err w stream b e idx t2 hlt hx] at h
        have heq := Except.error.inj (Option.some.inj h)
        obtain ⟨he, hidx, ht⟩ : e = e2 ∧ idx = idx2 ∧ t2 = t := by
          constructor
          · exact congrArg Prod.fst heq
          constructor
          · exact congrArg Prod.fst (congrArg Prod.snd heq)
          · exact congrArg Prod.snd (congrArg Prod.snd heq)
        subst he
        subst ht
        obtain ⟨hn1, hn2⟩ := execInstr_no_nei w e idx _ t2 hx
        refine ⟨hn1, hn2, 0, by omega, ?_⟩
        intro b2
        rw [Nat.zero_add]
        rw [← hidx]
        exact runLimitedGo_succ_err w stream b2 e idx t2 hlt hx
      · rw [runGo_succ_ok w stream b e idx e3 idx3 hlt hx] at h
        obtain ⟨hn1, hn2, n, hn, hall⟩ := ih e3 (idx3 + 1) e2 idx2 t h
        refine ⟨hn1, hn2, n + 1, by omega, ?_⟩
        intro b2
        have hadd : n + 1 + b2 + 1 = (n + b2 + 1) + 1 := by omega
        rw [hadd, runLimitedGo_succ_ok w stream (n + b2 + 1) e idx e3 idx3 hlt hx]
        exact hall b2
    · rw [runGo_exit w stream (b + 1) e idx hlt] at h
      cases Option.some.inj h


theorem runSlices_complete (w : Nat) (stream : List (BfInstruc Nat)) :
    ∀ (bs : List Nat) (e : ExecSt) (idx : Nat) (fuel : Nat)
      (r : Except (ExecSt × Nat × BfExecErrorTy) ExecSt),
    e.ptr < e.data.length →
    runGo w stream fuel e idx = some r →
    fuel ≤ bs.sum → 0 < bs.sum →
    (∀ e2, r = .ok e2 → ∃ left, runSlices w stream bs e idx = .ok e2 left) ∧
    (∀ e2 idx2 t, r = .error (e2, idx2, t) →
      ∃ left, runSlices w stream bs e idx = .err e2 idx2 left t) := by
  intro bs
  induction bs with
  | nil =>
    intro e idx fuel r hp hg hs hpos
    simp at hpos
  | cons b bs ih =>
    intro e idx fuel r hp hg hs hpos
    by_cases hb0 : b = 0
    · subst hb0
      cases bs with
      | nil => simp at hpos
      | cons b2 bs2 =>
        have hw : internalRunLimited w stream 0 e idx
            = .err e idx 0 .NotEnoughInstructions := by
          rw [internalRunLimited, if_neg (by omega), if_pos rfl]
        have hrs : runSlices w stream (0 :: b2 :: bs2) e idx
            = runSlices w stream (b2 :: bs2) e idx := by
          rw [runSlices, hw]
        rw [hrs]
        exact ih e idx fuel r hp hg (by simpa using hs) (by simpa using hpos)
    · rcases hgb : runGo w stream b e idx with _ | r2
      · obtain ⟨e2, idx2, h1, h2, h3, h4⟩ := runGo_none_limited w stream b e idx hp hgb
        have hbf : b < fuel := by
          by_contra hle
          have hst := runGo_stable w stream fuel b e idx r (by omega) hg
          rw [hgb] at hst
          cases hst
        have hw : internalRunLimited w stream b e idx
            = .err e2 idx2 0 .NotEnoughInstructions := by
          rw [internalRunLimited, if_neg (by omega), if_neg hb0]
          exact h3
        have hshift : runGo w stream (fuel - b) e2 idx2 = some r := by
          have h5 := h4 (fuel - b)
          rw [← h5]
          have hb2 : b + (fuel - b) = fuel := by omega
          rw [hb2]
          exact hg
        cases bs with
        | nil =>
          exfalso
          simp at hs
          omega
        | cons b2 bs2 =>
          have hrs : runSlices w stream (b :: b2 :: bs2) e idx
              = runSlices w stream (b2 :: bs2) e2 idx2 := by
            rw [runSlices, hw]
          rw [hrs]
          have hsum : (b :: b2 :: bs2).sum = b + (b2 :: bs2).sum := by simp
          refine ih e2 idx2 (fuel - b) r h2 hshift ?_ ?_
          · omega
          · omega
      · have hr2 : r2 = r := by
          rcases Nat.le_total fuel b with hle | hle
          · have hst := runGo_stable w stream fuel b e idx r hle hg
            rw [hgb] at hst
            exact Option.some.inj hst
          · have hst := runGo_stable w stream b fuel e idx r2 hle hgb
            rw [hg] at hst
            exact (Option.some.inj hst).symm
        subst hr2
        rcases r2 with ⟨e2, idx2, t⟩ | e2
        · obtain ⟨hn1, hn2, n, hn, hall⟩ :=
            runGo_err_limited w stream b e idx e2 idx2 t hgb
          have hw : internalRunLimited w stream b e idx = .err e2 idx2 (b - n) t := by
            have hx := hall (b - n - 1)
            have hb2 : n + (b - n - 1) + 1 = b := by omega
            have hb3 : b - n - 1 + 1 = b - n := by omega
            rw [hb2, hb3] at hx
            rw [internalRunLimited, if_neg (by omega), if_neg hb0]
            exact hx
          constructor
          · intro e3 he3
            cases he3
          · intro e3 idx3 t3 he3
            have he : e2 = e3 ∧ idx2 = idx3 ∧ t = t3 := by
              have heq := Except.error.inj he3
              refine ⟨congrArg Prod.fst heq, ?_, ?_⟩
              · exact congrArg Prod.fst (congrArg Prod.snd heq)
              · exact congrArg Prod.snd (congrArg Prod.snd heq)
            obtain ⟨rfl, rfl, rfl⟩ := he
            refine ⟨b - n, ?_⟩
            cases bs with
            | nil =>
              rw [runSlices]
              exact hw
            | cons b2 bs2 =>
              rw [runSlices, hw]
              cases t <;> first | rfl | exact absurd rfl hn1
        · obtain ⟨n, hn, hall⟩ := runGo_ok_limited w stream b e idx e2 hgb
          have hw : internalRunLimited w stream b e idx = .ok e2 (b - n) := by
            have hx := hall (b - n)
            have hb2 : n + (b - n) = b := by omega
            rw [hb2] at hx
            rw [internalRunLimited, if_neg (by omega), if_neg hb0]
            exact hx
          constructor
          · intro e3 he3
            have he : e2 = e3 := Except.ok.inj he3
            subst he
            refine ⟨b - n, ?_⟩
            cases bs with
            | nil =>
              rw [runSlices]
              exact hw
            | cons b2 bs2 =>
              rw [runSlices, hw]
          · intro e3 idx3 t3 he3
            cases he3

/-- Claim C2: if the unlimited run (internal_run::<false>) of a stream from
index 0 terminates — modelled as the fuelled loop returning a result for
some fuel — then driving the same stream through run_limited and
run_limited_from under any partition of a sufficient positive budget (each
exhausted slice ends in NotEnoughInstructions carrying the current index,
and the next slice resumes from that index) reaches the same terminal
state, output and error as the unlimited run. -/
theorem claim_C2 (w : Nat) (stream : List (BfInstruc Nat)) (bs : List Nat) (fuel : Nat)
    (e : ExecSt) (r : Except (ExecSt × Nat × BfExecErrorTy) ExecSt)
    (hrun : internalRun w stream fuel e 0 = some r)
    (hsum : fuel ≤ bs.sum) (hpos : 0 < bs.sum) :
    (∀ e2, r = .ok e2 → ∃ left, runSlices w stream bs e 0 = .ok e2 left) ∧
    (∀ e2 idx2 t, r = .error (e2, idx2, t) →
      ∃ left, runSlices w stream bs e 0 = .err e2 idx2 left t) := by
  rw [internalRun] at hrun
  by_cases hp : e.data.length ≤ e.ptr
  · rw [if_pos hp] at hrun
    have hr : r = .error (e, 0, .InitOverflow) := (Option.some.inj hrun).symm
    subst hr
    constructor
    · intro e2 he2
      cases he2
    · intro e2 idx2 t he2
      have he : e = e2 ∧ (0 : Nat) = idx2 ∧ BfExecErrorTy.InitOverflow = t := by
        have heq := Except.error.inj he2
        refine ⟨congrArg Prod.fst heq, ?_, ?_⟩
        · exact congrArg Prod.fst (congrArg Prod.snd heq)
        · exact congrArg Prod.snd (congrArg Prod.snd heq)
      obtain ⟨rfl, h0, rfl⟩ := he
      have hw : ∀ b, internalRunLimited w stream b e 0 = .err e 0 b .InitOverflow := by
        intro b
        rw [internalRunLimited, if_pos hp]
      rw [← h0]
      cases bs with
      | nil => simp at hpos
      | cons b bs2 =>
        refine ⟨b, ?_⟩
        cases bs2 with
        | nil =>
          rw [runSlices]
          exact hw b
        | cons b2 bs3 =>
          rw [runSlices, hw b]
  · rw [if_neg hp] at hrun
    exact runSlices_complete w stream bs e 0 fuel r (by omega) hrun hsum hpos


/-- Witness for claim C2: the four-instruction stream +>+< on a 2-cell
8-bit tape runs to the tape [1,1] with the head back at 0 in 4
instructions; splitting the budget as 2 + 2 (the first slice stops with
NotEnoughInstructions after the second instruction) reaches the same
terminal state with no budget left. -/
theorem claim_C2_witness :
    runSlices 8 [BfInstruc.Inc, BfInstruc.IncPtr, BfInstruc.Inc, BfInstruc.DecPtr]
      [2, 2] ⟨0, [0, 0], [], []⟩ 0 = .ok ⟨0, [1, 1], [], []⟩ 0 := by
  have h := (claim_C2 8 [BfInstruc.Inc, BfInstruc.IncPtr, BfInstruc.Inc, BfInstruc.DecPtr]
      [2, 2] 4 ⟨0, [0, 0], [], []⟩ (.ok ⟨0, [1, 1], [], []⟩)
      (by rfl) (by simp) (by simp)).1 ⟨0, [1, 1], [], []⟩ rfl
  obtain ⟨left, hl⟩ := h
  exact (by rfl :
    runSlices 8 [BfInstruc.Inc, BfInstruc.IncPtr, BfInstruc.Inc, BfInstruc.DecPtr]
      [2, 2] (⟨0, [0, 0], [], []⟩ : ExecSt) 0 = .ok ⟨0, [1, 1], [], []⟩ 0)


set_option maxRecDepth 4000 in
/-- Claim C1 refuted (code bug): the interpreters do not all produce the
same byte sequence on the writer. The well-formed program +[.+>+] lowered
by the tree pipeline runs on a 2-cell 8-bit tape with empty input: the
primary interpreter (InterpreterStream::run) buffers the two written bytes
in its local write-loop buffer and loses them when the pointer overflows at
instruction 4, finishing with Overflow and an empty writer, while the
direct interpreter (stupid.rs) writes 1, 1 to the writer before failing
with the same Overflow at byte 4. -/
theorem claim_C1 :
    treePipeline [43, 91, 46, 43, 62, 43, 93]
      = .ok ([Executable.Inc 1, Executable.WLStart 6, Executable.Write, Executable.Inc 1,
              Executable.IncPtr 1, Executable.Inc 1, Executable.WLEnd 1], ⟨[], []⟩) ∧
    interpreterStreamRun 8
      [Executable.Inc 1, Executable.WLStart 6, Executable.Write, Executable.Inc 1,
       Executable.IncPtr 1, Executable.Inc 1, Executable.WLEnd 1] [] 20 ⟨0, [0, 0], [], []⟩
      = some (.error (⟨1, [2, 2], [], []⟩, 4, .Overflow)) ∧
    stupidRunTop 8 [43, 91, 46, 43, 62, 43, 93] 20 ⟨0, [0, 0], [], []⟩
      = some (.error (.inl (⟨1, [2, 2], [], [1, 1]⟩, 4, .Overflow))) := by
  refine ⟨?_, by rfl, ?_⟩
  · simp [treePipeline, Token.parse, parseGo, Token.toTree, toTreeGo, rewriteAll,
      rewriteZero, rewriteMultiply, findIfConditions, rewriteWriteLoops,
      ITree.asMultiply, asMultiplyGo, isWriteloop, zeroInLoop, terminatingNestedLen,
      ITree.terminates, ITree.synthesize, synthInner, synthNode, MultiplyCache.insert,
      isProgByte, Except.map, U32, U64]
  · rfl
